import Mathlib

/-!
# Shopping cart and bill generator: a verification development

A shallow embedding of `shopping_cart.c` and the properties proved about it.

Modelling conventions.

* A C string is the list of its characters; the terminating NUL is implicit,
  and text (standard input, the cart file) carries no NUL character.
* The type `float` and what the program does with it are a parameter of the
  embedding, a `FloatEnv`: the conversions between `float` and text that the
  C library provides (`strtof`, the `%f` of `sscanf`, the `%.2f` of
  `printf`) and the three operations of the program on floats (`qty * price`,
  `value <= 0.0`, `==`).  The cart operations and the persistence layer are
  translated for every such environment, and the theorems about them hold for
  every one.  `binary32` is the environment of an LP64 Linux machine with
  IEEE single precision and the GNU C library; it is the one the closed
  examples are evaluated in.
* `calculateFinalBill` alone is stated over exact rationals, the reading of
  the money amounts under which its law is claimed.
* The cart is the pair of the array `arr` (a function from slot index to
  `Item`, so that slots past `count` exist and can hold stale data, as in C)
  and the number `count` of live items.
* Standard input is the list of characters not yet read.  A reader that loops
  until it gets acceptable input yields `none` when the C loop would never
  leave (end of input inside a retry loop).
* In `loadFromFile`, `none` is undefined behaviour: `sscanf` writing past the
  end of `code[10]` or `name[50]`.
* Messages printed to standard output are not part of the state.
-/

namespace ShoppingCart

/-! ## Configuration constants -/

def MAX_ITEMS : Nat := 200
def MAX_CODE_LEN : Nat := 10
def MAX_NAME_LEN : Nat := 50
def DISCOUNT_THRESHOLD : ℚ := 500
def DISCOUNT_RATE : ℚ := 1 / 10

/-! ## The type `float` and its services -/

/-- What the program uses of `float`: `strtof(input, &endptr)` (the value and
what `endptr` points at), the directive `%f` of `sscanf` (`none` is a matching
failure, otherwise the value stored and the unread rest), the conversion
`%.2f` of `printf`, the product `qty * price` of an `int` and a `float`, the
test `value <= 0.0` and the comparison `==`. -/
structure FloatEnv (F : Type) where
  strtof : List Char → F × List Char
  scanFloat : List Char → Option (F × List Char)
  printFixed2 : F → List Char
  mulInt : Int → F → F
  leZero : F → Bool
  eq : F → F → Bool

/-! ## Data model -/

/-- The `Item` struct: `code` and `name` are the C strings held in the two
character buffers, `quantity` is the `int`, `unitPrice` and `subtotal` are the
two `float`s. -/
structure Item (F : Type) where
  code : List Char
  name : List Char
  quantity : Int
  unitPrice : F
  subtotal : F
deriving DecidableEq, Inhabited

/-- The cart as `main` holds it: the array and the item count. -/
structure Cart (F : Type) where
  arr : Nat → Item F
  count : Nat

/-- The live items of a cart, in order. -/
def Cart.items {F : Type} (c : Cart F) : List (Item F) := (List.range c.count).map c.arr

/-! ## Validated input layer -/

/-- The characters `fgets` stores, and the rest of the stream, when it may
store at most `k` characters: it stops after a newline, at end of input, or
when the `k` characters are used up. -/
def fgetsChars : Nat → List Char → List Char × List Char
  | 0, s => ([], s)
  | _ + 1, [] => ([], [])
  | k + 1, c :: s =>
    if c = '\n' then ([c], s)
    else (c :: (fgetsChars k s).1, (fgetsChars k s).2)

/-- The call `fgets(buffer, n, stream)`: `none` is the NULL returned at end of
input, otherwise the buffer contents (at most `n - 1` characters) and the
remaining stream. -/
def fgets (n : Nat) (s : List Char) : Option (List Char × List Char) :=
  match s with
  | [] => none
  | _ :: _ => some (fgetsChars (n - 1) s)

/-- The statement `buffer[strcspn(buffer, "\n")] = 0`. -/
def stripNewline (buffer : List Char) : List Char :=
  buffer.takeWhile (fun c => c ≠ '\n')

/-- The `while (buffer[0] == 0)` loop of `getString`, entered with an empty
buffer; the first argument bounds the number of iterations. -/
def getStringRetry (maxLength : Nat) : Nat → List Char → Option (List Char × List Char)
  | 0, _ => none
  | fuel + 1, s =>
    match fgets maxLength s with
    | none => some ([], s)
    | some (b, s1) =>
      if stripNewline b = [] then getStringRetry maxLength fuel s1
      else some (stripNewline b, s1)

/-- The function `getString(prompt, buffer, maxLength)`: the final buffer
contents and the remaining input. -/
def getString (maxLength : Nat) (s : List Char) : Option (List Char × List Char) :=
  match fgets maxLength s with
  | none => some ([], s)
  | some (b, s1) =>
    if stripNewline b = [] then getStringRetry maxLength (s1.length + 1) s1
    else some (stripNewline b, s1)

/-- The C `isspace` in the default locale. -/
def isspace (c : Char) : Bool :=
  c = ' ' || c = '\t' || c = '\n' || c = '\x0b' || c = '\x0c' || c = '\r'

/-- The value of a decimal digit character. -/
def digitVal (c : Char) : Nat := c.toNat - 48

/-- Reads the longest run of decimal digits, accumulating its value onto
`acc`; returns the value and the unread rest. -/
def scanDigits : Nat → List Char → Nat × List Char
  | acc, [] => (acc, [])
  | acc, c :: s =>
    if c.isDigit then scanDigits (acc * 10 + digitVal c) s else (acc, c :: s)

/-- An optional sign: whether it is a minus, and the rest. -/
def scanSign (s : List Char) : Bool × List Char :=
  match s with
  | '-' :: t => (true, t)
  | '+' :: t => (false, t)
  | _ => (false, s)

/-- Saturation of `strtol` at the range of a 64-bit `long`. -/
def clampLong (v : Int) : Int :=
  if v > 9223372036854775807 then 9223372036854775807
  else if v < -9223372036854775808 then -9223372036854775808
  else v

/-- Conversion of a `long` to a 32-bit `int` (wrap-around). -/
def toInt32 (v : Int) : Int := (v + 2147483648) % 4294967296 - 2147483648

/-- The integer conversion shared by `strtol` and the `%d` of `sscanf`: white
space is skipped, then an optional sign and a non-empty run of digits are
read; the value saturates at the range of `long`.  `none` when there are no
digits to convert. -/
def convertLong (input : List Char) : Option (Int × List Char) :=
  let sg := scanSign (input.dropWhile isspace)
  match sg.2 with
  | [] => none
  | c :: u =>
    if c.isDigit then
      let r := scanDigits 0 (c :: u)
      some (clampLong (if sg.1 then -(r.1 : Int) else (r.1 : Int)), r.2)
    else none

/-- The call `strtol(input, &endptr, 10)`: the value and what `endptr` points
at.  With no digits to convert the value is 0 and `endptr` is the input. -/
def strtol (input : List Char) : Int × List Char :=
  match convertLong input with
  | some r => r
  | none => (0, input)

/-- The `while (1)` loop of `getValidInteger(prompt)`; the first argument
bounds the number of iterations.  `requirePositive` is `prompt` being
non-empty. -/
def getValidIntegerLoop (requirePositive : Bool) : Nat → List Char → Option (Int × List Char)
  | 0, _ => none
  | fuel + 1, s =>
    match fgets 100 s with
    | none => getValidIntegerLoop requirePositive fuel s
    | some (b, s1) =>
      let input := stripNewline b
      if input = [] ∧ requirePositive = false then
        getValidIntegerLoop requirePositive fuel s1
      else
        let r := strtol input
        let value := toInt32 r.1
        if r.2 ≠ [] then getValidIntegerLoop requirePositive fuel s1
        else if value ≤ 0 ∧ requirePositive = true then
          getValidIntegerLoop requirePositive fuel s1
        else some (value, s1)

/-- The function `getValidInteger(prompt)`.  Every iteration that does not
hit end of input consumes a character, and at end of input the loop never
leaves, so `length + 1` iterations decide the outcome. -/
def getValidInteger (prompt : String) (s : List Char) : Option (Int × List Char) :=
  getValidIntegerLoop (decide (prompt ≠ "")) (s.length + 1) s

/-- The `while (1)` loop of `getValidFloat(prompt)`; the first argument
bounds the number of iterations.  A line is accepted when `strtof` converts
all of it and the test `value <= 0.0` is false. -/
def getValidFloatLoop {F : Type} (E : FloatEnv F) : Nat → List Char → Option (F × List Char)
  | 0, _ => none
  | fuel + 1, s =>
    match fgets 100 s with
    | none => getValidFloatLoop E fuel s
    | some (b, s1) =>
      let input := stripNewline b
      let r := E.strtof input
      if r.2 ≠ [] then getValidFloatLoop E fuel s1
      else if E.leZero r.1 = true then getValidFloatLoop E fuel s1
      else some (r.1, s1)

/-- The function `getValidFloat(prompt)`. -/
def getValidFloat {F : Type} (E : FloatEnv F) (s : List Char) : Option (F × List Char) :=
  getValidFloatLoop E (s.length + 1) s

/-! ## Cart store -/

/-- The loop of `findItemIndexByCode`, with `n` slots left to visit from
index `i`. -/
def findLoop {F : Type} (arr : Nat → Item F) (code : List Char) : Nat → Nat → Int
  | 0, _ => -1
  | n + 1, i => if (arr i).code = code then (i : Int) else findLoop arr code n (i + 1)

/-- The function `findItemIndexByCode(arr, count, code)`. -/
def findItemIndexByCode {F : Type} (arr : Nat → Item F) (count : Nat) (code : List Char) :
    Int :=
  findLoop arr code count 0

/-- The function `calculateSubtotal(qty, price)`. -/
def calculateSubtotal {F : Type} (E : FloatEnv F) (qty : Int) (price : F) : F :=
  E.mulInt qty price

/-- The function `addItem(arr, count)`: the new cart and the remaining input. -/
def addItem {F : Type} (E : FloatEnv F) (c : Cart F) (stdin : List Char) :
    Option (Cart F × List Char) :=
  if c.count ≥ MAX_ITEMS then some (c, stdin)
  else
    match getString MAX_CODE_LEN stdin with
    | none => none
    | some (code, s1) =>
      let arr1 := Function.update c.arr c.count { c.arr c.count with code := code }
      if findItemIndexByCode arr1 c.count (arr1 c.count).code ≠ -1 then
        some (⟨arr1, c.count⟩, s1)
      else
        match getString MAX_NAME_LEN s1 with
        | none => none
        | some (name, s2) =>
          let arr2 := Function.update arr1 c.count { arr1 c.count with name := name }
          match getValidInteger "Enter quantity (positive number): " s2 with
          | none => none
          | some (qty, s3) =>
            let arr3 := Function.update arr2 c.count { arr2 c.count with quantity := qty }
            match getValidFloat E s3 with
            | none => none
            | some (price, s4) =>
              let arr4 := Function.update arr3 c.count { arr3 c.count with unitPrice := price }
              let arr5 := Function.update arr4 c.count
                { arr4 c.count with
                  subtotal :=
                    calculateSubtotal E (arr4 c.count).quantity (arr4 c.count).unitPrice }
              some (⟨arr5, c.count + 1⟩, s4)

/-- The `switch (choice)` of `updateItem` and the recomputation after it, for
the item at `index`. -/
def updateSwitch {F : Type} (E : FloatEnv F) (c : Cart F) (index : Nat) (choice : Int)
    (s : List Char) : Option (Cart F × List Char) :=
  let recompute (arr : Nat → Item F) : Nat → Item F :=
    Function.update arr index
      { arr index with
        subtotal := calculateSubtotal E (arr index).quantity (arr index).unitPrice }
  if choice = 1 then
    match getValidInteger "Enter new quantity (positive number): " s with
    | none => none
    | some (qty, s1) =>
      some (⟨recompute (Function.update c.arr index { c.arr index with quantity := qty }),
        c.count⟩, s1)
  else if choice = 2 then
    match getValidFloat E s with
    | none => none
    | some (price, s1) =>
      some (⟨recompute (Function.update c.arr index { c.arr index with unitPrice := price }),
        c.count⟩, s1)
  else if choice = 3 then
    match getValidInteger "Enter new quantity (positive number): " s with
    | none => none
    | some (qty, s1) =>
      let arr1 := Function.update c.arr index { c.arr index with quantity := qty }
      match getValidFloat E s1 with
      | none => none
      | some (price, s2) =>
        some (⟨recompute (Function.update arr1 index { arr1 index with unitPrice := price }),
          c.count⟩, s2)
  else some (c, s)

/-- The function `updateItem(arr, count)`. -/
def updateItem {F : Type} (E : FloatEnv F) (c : Cart F) (stdin : List Char) :
    Option (Cart F × List Char) :=
  if c.count = 0 then some (c, stdin)
  else
    match getString MAX_CODE_LEN stdin with
    | none => none
    | some (updateCode, s1) =>
      let index := findItemIndexByCode c.arr c.count updateCode
      if index = -1 then some (c, s1)
      else
        match getValidInteger "Enter your choice: " s1 with
        | none => none
        | some (choice, s2) => updateSwitch E c index.toNat choice s2

/-- The shifting loop of `removeItem`: `arr[i] = arr[i + 1]` for `i` from
`index` while `i < count - 1`. -/
def shiftDown {F : Type} (arr : Nat → Item F) (count index : Nat) : Nat → Item F :=
  (List.range' index (count - 1 - index)).foldl
    (fun a i => Function.update a i (a (i + 1))) arr

/-- The function `removeItem(arr, count)`. -/
def removeItem {F : Type} (c : Cart F) (stdin : List Char) : Option (Cart F × List Char) :=
  if c.count = 0 then some (c, stdin)
  else
    match getString MAX_CODE_LEN stdin with
    | none => none
    | some (removeCode, s1) =>
      let index := findItemIndexByCode c.arr c.count removeCode
      if index = -1 then some (c, s1)
      else
        match getValidInteger "" s1 with
        | none => none
        | some (confirm, s2) =>
          if confirm ≠ 1 then some (c, s2)
          else some (⟨shiftDown c.arr c.count index.toNat, c.count - 1⟩, s2)

/-! ## Billing engine -/

/-- The function `calculateFinalBill(arr, count, &discount)` with the amounts
read as exact numbers: the returned final bill and the value stored in
`discount`. -/
def calculateFinalBill (arr : Nat → Item ℚ) (count : Nat) : ℚ × ℚ :=
  let total := (List.range count).foldl (fun t i => t + (arr i).subtotal) 0
  let discount := if total ≥ DISCOUNT_THRESHOLD then total * DISCOUNT_RATE else 0
  (total - discount, discount)

/-! ## Persistence layer -/

/-- The character of a decimal digit. -/
def digitChar (d : Nat) : Char := Char.ofNat (48 + d)

/-- Decimal digits of `n`, most significant first, pushed in front of `acc`;
the first argument bounds the number of digits. -/
def natDigitsAux : Nat → Nat → List Char → List Char
  | 0, _, acc => acc
  | fuel + 1, n, acc =>
    if n / 10 = 0 then digitChar (n % 10) :: acc
    else natDigitsAux fuel (n / 10) (digitChar (n % 10) :: acc)

/-- The decimal representation of a natural number. -/
def natDigits (n : Nat) : List Char := natDigitsAux (n + 1) n []

/-- The conversion `%d` of `printf`. -/
def formatInt (v : Int) : List Char :=
  if v < 0 then '-' :: natDigits v.natAbs else natDigits v.natAbs

/-- One line of the cart file: the output of
`fprintf(file, "%s|%s|%d|%.2f|%.2f\n", ...)` for one item. -/
def formatItem {F : Type} (E : FloatEnv F) (it : Item F) : List Char :=
  it.code ++ '|' :: it.name ++ '|' :: formatInt it.quantity ++
    '|' :: E.printFixed2 it.unitPrice ++ '|' :: E.printFixed2 it.subtotal ++ ['\n']

/-- The function `saveToFile(filename, arr, count)` when the file opens: the
new content of the file. -/
def saveToFile {F : Type} (E : FloatEnv F) (arr : Nat → Item F) (count : Nat) : List Char :=
  (List.range count).foldl (fun out i => out ++ formatItem E (arr i)) []

/-- The directive `%[^|]` of `sscanf`: a non-empty run of characters other
than the pipe. -/
def scanNotPipe (s : List Char) : Option (List Char × List Char) :=
  if s.takeWhile (fun c => c ≠ '|') = [] then none
  else some (s.takeWhile (fun c => c ≠ '|'), s.dropWhile (fun c => c ≠ '|'))

/-- The literal `|` in the format of `sscanf`. -/
def scanPipe (s : List Char) : Option (List Char) :=
  match s with
  | '|' :: t => some t
  | _ => none

/-- The directive `%d` of `sscanf`, stored into an `int`. -/
def scanInt (s : List Char) : Option (Int × List Char) :=
  match convertLong s with
  | some r => some (toInt32 r.1, r.2)
  | none => none

/-- The call `sscanf(line, "%[^|]|%[^|]|%d|%f|%f", code, name, &qty, &price,
&subtotal)` followed by the five assignments into the array slot.  The
directives are matched in order and matching stops at the first failure; a
local variable that was not assigned keeps its indeterminate content, given
here by `junk` (two terminated strings and three numbers).  `none` is undefined behaviour: a first field of
`MAX_CODE_LEN` characters or more, or a second field of `MAX_NAME_LEN`
characters or more, is written past the end of its buffer. -/
def sscanfItem {F : Type} (E : FloatEnv F) (junk : Item F) (line : List Char) :
    Option (Item F) :=
  match scanNotPipe line with
  | none => some junk
  | some (code, r1) =>
    if MAX_CODE_LEN ≤ code.length then none
    else
      match scanPipe r1 with
      | none => some { junk with code := code }
      | some r2 =>
        match scanNotPipe r2 with
        | none => some { junk with code := code }
        | some (name, r3) =>
          if MAX_NAME_LEN ≤ name.length then none
          else
            match scanPipe r3 with
            | none => some { junk with code := code, name := name }
            | some r4 =>
              match scanInt r4 with
              | none => some { junk with code := code, name := name }
              | some (qty, r5) =>
                match scanPipe r5 with
                | none => some { junk with code := code, name := name, quantity := qty }
                | some r6 =>
                  match E.scanFloat r6 with
                  | none => some { junk with code := code, name := name, quantity := qty }
                  | some (price, r7) =>
                    match scanPipe r7 with
                    | none =>
                      some { junk with code := code, name := name, quantity := qty,
                                       unitPrice := price }
                    | some r8 =>
                      match E.scanFloat r8 with
                      | none =>
                        some { junk with code := code, name := name, quantity := qty,
                                         unitPrice := price }
                      | some (subtotal, _) => some ⟨code, name, qty, price, subtotal⟩

/-- The `while (fgets(line, sizeof(line), file) != NULL)` loop of
`loadFromFile`; the first argument bounds the number of iterations.
`junk k` is the indeterminate content of the locals while record `k` is
parsed.  `none` is the undefined behaviour of `sscanfItem`. -/
def loadLoop {F : Type} (E : FloatEnv F) (junk : Nat → Item F) :
    Nat → List Char → Cart F → Option (Cart F)
  | 0, _, c => some c
  | fuel + 1, s, c =>
    match fgets 256 s with
    | none => some c
    | some (line, s1) =>
      if '|' ∈ line then
        match sscanfItem E (junk c.count) line with
        | none => none
        | some it =>
          if c.count + 1 ≥ MAX_ITEMS then
            some ⟨Function.update c.arr c.count it, c.count + 1⟩
          else
            loadLoop E junk fuel s1 ⟨Function.update c.arr c.count it, c.count + 1⟩
      else loadLoop E junk fuel s1 c

/-- The function `loadFromFile(filename, arr, count)`.  `file` is the content
of the file, `none` when it cannot be opened.  Every iteration consumes a
character, so `length + 1` iterations reach the end of the file. -/
def loadFromFile {F : Type} (E : FloatEnv F) (junk : Nat → Item F)
    (file : Option (List Char)) (arr : Nat → Item F) : Option (Cart F) :=
  match file with
  | none => some ⟨arr, 0⟩
  | some s => loadLoop E junk (s.length + 1) s ⟨arr, 0⟩

/-- The content of a text file made of the given lines, each ended by a
newline. -/
def fileOfLines (lines : List (List Char)) : List Char :=
  lines.foldr (fun l out => l ++ '\n' :: out) []

/-! ## IEEE single precision with the GNU C library -/

/-- A `float` of IEEE single precision: a finite number by sign and magnitude
(so that the two zeros differ), an infinity, or a NaN with its sign bit. -/
inductive Binary32
  | fin (neg : Bool) (mag : ℚ)
  | inf (neg : Bool)
  | nan (neg : Bool)
deriving DecidableEq

instance : Inhabited Binary32 := ⟨Binary32.fin false 0⟩

/-- The value with the opposite sign. -/
def Binary32.negate : Binary32 → Binary32
  | Binary32.fin n m => Binary32.fin (!n) m
  | Binary32.inf n => Binary32.inf (!n)
  | Binary32.nan n => Binary32.nan (!n)

/-- The position of the leading binary digit of `n`; the first argument
bounds the recursion. -/
def log2Aux : Nat → Nat → Nat
  | 0, _ => 0
  | fuel + 1, n => if n < 2 then 0 else log2Aux fuel (n / 2) + 1

/-- The power `b ^ e` of a natural base with an integer exponent. -/
def powInt (b : Nat) (e : Int) : ℚ :=
  if 0 ≤ e then ((b ^ e.toNat : Nat) : ℚ) else 1 / ((b ^ (-e).toNat : Nat) : ℚ)

/-- The exponent `e` with `2 ^ e ≤ q < 2 ^ (e + 1)`, for positive `q`. -/
def floorLog2 (q : ℚ) : Int :=
  let e0 : Int := (log2Aux q.num.natAbs q.num.natAbs : Int) - (log2Aux q.den q.den : Int)
  if q < powInt 2 e0 then e0 - 1 else e0

/-- Rounding of a non-negative rational to the nearest integer, ties to the
even neighbour. -/
def roundHalfEven (y : ℚ) : Nat :=
  let f := ⌊y⌋.toNat
  let r := y - (f : ℚ)
  if r < 1 / 2 then f
  else if 1 / 2 < r then f + 1
  else if f % 2 = 0 then f else f + 1

/-- Rounding of an exact magnitude, with its sign, to the nearest `float`,
ties to even: 24 significant binary digits, exponents from -126 (below that
the spacing stays `2 ^ -149`, down to zero), infinity from `2 ^ 128` on. -/
def roundBinary32 (neg : Bool) (mag : ℚ) : Binary32 :=
  if mag = 0 then Binary32.fin neg 0
  else
    let e := max (floorLog2 mag) (-126)
    let quantum : ℚ := powInt 2 (e - 23)
    let r : ℚ := (roundHalfEven (mag / quantum) : ℚ) * quantum
    if powInt 2 128 ≤ r then Binary32.inf neg else Binary32.fin neg r

/-- An optional exponent: the exponent character in either case, an optional
sign and digits; without digits nothing is consumed. -/
def scanExponent (expChar : Char) (s : List Char) : Int × List Char :=
  match s with
  | [] => (0, [])
  | c :: t =>
    if c.toLower = expChar then
      let sg := scanSign t
      match sg.2 with
      | [] => (0, s)
      | d :: u =>
        if d.isDigit then
          let r := scanDigits 0 (d :: u)
          (if sg.1 then -(r.1 : Int) else (r.1 : Int), r.2)
        else (0, s)
    else (0, s)

/-- The unsigned decimal mantissa `ddd[.ddd]`: whether a digit was seen, the
value, and the rest. -/
def scanMantissa (s : List Char) : Bool × ℚ × List Char :=
  let ip := scanDigits 0 s
  let intSeen := decide (ip.2.length < s.length)
  match ip.2 with
  | '.' :: t =>
    let fp := scanDigits 0 t
    let fracLen := t.length - fp.2.length
    if intSeen || decide (0 < fracLen) then
      (true, (ip.1 : ℚ) + (fp.1 : ℚ) / (10 : ℚ) ^ fracLen, fp.2)
    else (false, 0, s)
  | _ => (intSeen, (ip.1 : ℚ), ip.2)

/-- The C `isxdigit`. -/
def isxdigit (c : Char) : Bool :=
  c.isDigit || (decide ('a' ≤ c) && decide (c ≤ 'f')) || (decide ('A' ≤ c) && decide (c ≤ 'F'))

/-- The value of a hexadecimal digit character. -/
def hexVal (c : Char) : Nat :=
  if c.isDigit then c.toNat - 48 else if 'a' ≤ c then c.toNat - 87 else c.toNat - 55

/-- Reads the longest run of hexadecimal digits, accumulating its value onto
`acc`. -/
def scanHexDigits : Nat → List Char → Nat × List Char
  | acc, [] => (acc, [])
  | acc, c :: s =>
    if isxdigit c then scanHexDigits (acc * 16 + hexVal c) s else (acc, c :: s)

/-- The unsigned hexadecimal mantissa `hhh[.hhh]`: whether a digit was seen,
the value, and the rest. -/
def scanHexMantissa (s : List Char) : Bool × ℚ × List Char :=
  let ip := scanHexDigits 0 s
  let intSeen := decide (ip.2.length < s.length)
  match ip.2 with
  | '.' :: t =>
    let fp := scanHexDigits 0 t
    let fracLen := t.length - fp.2.length
    if intSeen || decide (0 < fracLen) then
      (true, (ip.1 : ℚ) + (fp.1 : ℚ) / (16 : ℚ) ^ fracLen, fp.2)
    else (false, 0, s)
  | _ => (intSeen, (ip.1 : ℚ), ip.2)

/-- Whether the text starts with the lower-case pattern, in either case. -/
def startsWithCI : List Char → List Char → Bool
  | [], _ => true
  | _ :: _, [] => false
  | p :: ps, c :: cs => decide (c.toLower = p) && startsWithCI ps cs

/-- After `nan`: an optional `(n-char-sequence)` of letters, digits and
underscores; without the closing parenthesis nothing is consumed. -/
def scanNanTail (s : List Char) : List Char :=
  match s with
  | '(' :: t =>
    match t.dropWhile (fun c => c.isAlphanum || c = '_') with
    | ')' :: u => u
    | _ => s
  | _ => s

/-- The hexadecimal floating constant `0x hhh[.hhh][p[+-]ddd]`, if the text
starts with one. -/
def convertHex (s : List Char) : Option (Binary32 × List Char) :=
  match s with
  | '0' :: x :: t =>
    if x.toLower = 'x' then
      let m := scanHexMantissa t
      if m.1 then
        let e := scanExponent 'p' m.2.2
        some (roundBinary32 false (m.2.1 * powInt 2 e.1), e.2)
      else none
    else none
  | _ => none

/-- The subject sequence of `strtof` after white space and sign: `infinity`
or `inf`, `nan` with its optional tail, a hexadecimal constant, or a decimal
constant `ddd[.ddd][e[+-]ddd]`; the value is rounded to the nearest `float`.
`none` when the text starts with none of these. -/
def convertUnsigned (s : List Char) : Option (Binary32 × List Char) :=
  if startsWithCI "infinity".toList s then some (Binary32.inf false, s.drop 8)
  else if startsWithCI "inf".toList s then some (Binary32.inf false, s.drop 3)
  else if startsWithCI "nan".toList s then some (Binary32.nan false, scanNanTail (s.drop 3))
  else
    match convertHex s with
    | some r => some r
    | none =>
      let m := scanMantissa s
      if m.1 then
        let e := scanExponent 'e' m.2.2
        some (roundBinary32 false (m.2.1 * powInt 10 e.1), e.2)
      else none

/-- The call `strtof(input, &endptr)` of the GNU C library: the value and what
`endptr` points at.  With nothing to convert the value is 0 and `endptr` is
the input. -/
def strtofBinary32 (input : List Char) : Binary32 × List Char :=
  let sg := scanSign (input.dropWhile isspace)
  match convertUnsigned sg.2 with
  | some r => (if sg.1 then r.1.negate else r.1, r.2)
  | none => (Binary32.fin false 0, input)

/-- The loop in which the `%f` of GNU `sscanf` collects the characters of a
number: digits, one point, one exponent character with a sign right after
it.  `buf` holds what was collected, latest first. -/
def lexLoop (hexa : Bool) : Bool → Bool → Bool → List Char → List Char → List Char × List Char
  | _, _, _, buf, [] => (buf.reverse, [])
  | gotDigit, gotE, gotDot, buf, c :: s =>
    if c.isDigit then lexLoop hexa true gotE gotDot (c :: buf) s
    else if !gotE && hexa && isxdigit c then lexLoop hexa true gotE gotDot (c :: buf) s
    else if gotE && (buf.head? == some (if hexa then 'p' else 'e')) && (c == '-' || c == '+') then
      lexLoop hexa gotDigit gotE gotDot (c :: buf) s
    else if gotDigit && !gotE && (c.toLower == (if hexa then 'p' else 'e')) then
      lexLoop hexa gotDigit true true ((if hexa then 'p' else 'e') :: buf) s
    else if c == '.' && !gotDot then lexLoop hexa gotDigit gotE true (c :: buf) s
    else (buf.reverse, c :: s)

/-- The characters that the `%f` of GNU `sscanf` takes from the input, after
white space, and the unread rest; `none` is a matching failure. -/
def lexFloat (s : List Char) : Option (List Char × List Char) :=
  let t := s.dropWhile isspace
  let sign : List Char :=
    match t with
    | '-' :: _ => ['-']
    | '+' :: _ => ['+']
    | _ => []
  let u := t.drop sign.length
  match u with
  | [] => none
  | c :: _ =>
    if c.toLower = 'n' then
      if startsWithCI "nan".toList u then some (sign ++ u.take 3, u.drop 3) else none
    else if c.toLower = 'i' then
      if startsWithCI "inf".toList u then
        match u.drop 3 with
        | d :: _ =>
          if d.toLower = 'i' then
            if startsWithCI "infinity".toList u then some (sign ++ u.take 8, u.drop 8) else none
          else some (sign ++ u.take 3, u.drop 3)
        | [] => some (sign ++ u.take 3, u.drop 3)
      else none
    else
      let r : Bool × List Char × List Char :=
        match u with
        | '0' :: x :: w =>
          if x.toLower = 'x' then (true, lexLoop true false false false [x, '0'] w)
          else (false, lexLoop false true false false ['0'] (x :: w))
        | _ => (false, lexLoop false false false false [] u)
      if r.2.1 = [] ∨ (r.1 = true ∧ r.2.1.length = 2) then none
      else some (sign ++ r.2.1, r.2.2)

/-- The directive `%f` of GNU `sscanf`: the characters it takes are converted
as `strtof` converts them; `none` is a matching failure. -/
def scanFloatBinary32 (s : List Char) : Option (Binary32 × List Char) :=
  match lexFloat s with
  | none => none
  | some (token, rest) =>
    match convertUnsigned (scanSign token).2 with
    | some r => some (if (scanSign token).1 then r.1.negate else r.1, rest)
    | none => none

/-- The conversion `%.2f` of GNU `printf`: sign, integer part, point, exactly
two decimals, the exact value rounded to the nearest hundredth, ties to even;
`inf` and `nan` for the values that are not numbers. -/
def printFixed2Binary32 : Binary32 → List Char
  | Binary32.fin neg mag =>
    (if neg then ['-'] else []) ++ natDigits (roundHalfEven (mag * 100) / 100) ++
      ['.', digitChar (roundHalfEven (mag * 100) / 10 % 10),
        digitChar (roundHalfEven (mag * 100) % 10)]
  | Binary32.inf neg => (if neg then ['-'] else []) ++ "inf".toList
  | Binary32.nan neg => (if neg then ['-'] else []) ++ "nan".toList

/-- The product `qty * price`: the `int` is converted to `float`, the product
is rounded to `float`.  A NaN operand is the result; zero times infinity is
the NaN with the sign bit set that SSE produces. -/
def mulIntBinary32 (q : Int) (x : Binary32) : Binary32 :=
  match roundBinary32 (decide (q < 0)) (|(q : ℚ)|), x with
  | _, Binary32.nan n => Binary32.nan n
  | Binary32.nan a, _ => Binary32.nan a
  | Binary32.fin a m, Binary32.fin n k => roundBinary32 (xor a n) (m * k)
  | Binary32.fin a m, Binary32.inf n => if m = 0 then Binary32.nan true else Binary32.inf (xor a n)
  | Binary32.inf a, Binary32.fin n k => if k = 0 then Binary32.nan true else Binary32.inf (xor a n)
  | Binary32.inf a, Binary32.inf n => Binary32.inf (xor a n)

/-- The test `value <= 0.0`. -/
def leZeroBinary32 : Binary32 → Bool
  | Binary32.fin neg mag => neg || decide (mag = 0)
  | Binary32.inf neg => neg
  | Binary32.nan _ => false

/-- The comparison `==`: the two zeros are equal, a NaN equals nothing. -/
def eqBinary32 : Binary32 → Binary32 → Bool
  | Binary32.fin a m, Binary32.fin b k => (decide (m = 0) && decide (k = 0)) || (a == b && decide (m = k))
  | Binary32.inf a, Binary32.inf b => a == b
  | _, _ => false

/-- The `float` of an LP64 Linux machine: IEEE single precision, SSE
arithmetic, the conversions of the GNU C library. -/
def binary32 : FloatEnv Binary32 where
  strtof := strtofBinary32
  scanFloat := scanFloatBinary32
  printFixed2 := printFixed2Binary32
  mulInt := mulIntBinary32
  leZero := leZeroBinary32
  eq := eqBinary32

/-! ## Invariants and reachable carts -/

/-- No two of the first `count` items share a code. -/
def UniqueCodes {F : Type} (c : Cart F) : Prop :=
  ∀ i j, i < c.count → j < c.count → (c.arr i).code = (c.arr j).code → i = j

/-- The stored subtotal of an item is the product `quantity * unitPrice` as
the program computes it. -/
def Item.SubtotalOk {F : Type} (it : Item F) (E : FloatEnv F) : Prop :=
  it.subtotal = E.mulInt it.quantity it.unitPrice

/-- Every one of the first `count` items has the subtotal the program
computes for it. -/
def SubtotalsOk {F : Type} (E : FloatEnv F) (c : Cart F) : Prop :=
  ∀ i, i < c.count → (c.arr i).SubtotalOk E

/-- The carts reached from an empty cart (any array content, count 0) by
`addItem`, `updateItem` and `removeItem`, each on any input on which it
returns. -/
inductive Reachable {F : Type} (E : FloatEnv F) : Cart F → Prop
  | empty (arr : Nat → Item F) : Reachable E ⟨arr, 0⟩
  | add (c c1 : Cart F) (s rest : List Char) :
      Reachable E c → addItem E c s = some (c1, rest) → Reachable E c1
  | update (c c1 : Cart F) (s rest : List Char) :
      Reachable E c → updateItem E c s = some (c1, rest) → Reachable E c1
  | remove (c c1 : Cart F) (s rest : List Char) :
      Reachable E c → removeItem c s = some (c1, rest) → Reachable E c1

/-! ## Records that survive a save and a load -/

/-- A string field that fits its buffer of `size` bytes and that `%[^|]`
reads back whole from a one-line record: non-empty, without pipe or newline. -/
def FieldOk (size : Nat) (f : List Char) : Prop :=
  f ≠ [] ∧ '|' ∉ f ∧ '\n' ∉ f ∧ f.length < size

instance (size : Nat) (f : List Char) : Decidable (FieldOk size f) := by
  unfold FieldOk
  infer_instance

/-- The amount `x` reads back: it is a number (equal to itself, so not a NaN),
`%.2f` prints it without a newline, and what `%.2f` prints for it, followed
by a pipe or a newline, is read by `%f` as `x` again, up to that separator. -/
def ReadsBack {F : Type} (E : FloatEnv F) (x : F) : Prop :=
  E.eq x x = true ∧ '\n' ∉ E.printFixed2 x ∧
    ∀ (sep : Char) (rest : List Char), sep = '|' ∨ sep = '\n' →
      E.scanFloat (E.printFixed2 x ++ sep :: rest) = some (x, sep :: rest)

/-- The record line of an item without its final newline. -/
def recordLine {F : Type} (E : FloatEnv F) (it : Item F) : List Char :=
  it.code ++ '|' :: it.name ++ '|' :: formatInt it.quantity ++
    '|' :: E.printFixed2 it.unitPrice ++ '|' :: E.printFixed2 it.subtotal

/-- An item that is written as one line and read back as it was: its two
strings fit their buffers and are non-empty, without pipe or newline, its
quantity is an `int`, its two amounts read back, and its line fits the
256-byte line buffer with its newline. -/
def Item.Storable {F : Type} (it : Item F) (E : FloatEnv F) : Prop :=
  FieldOk MAX_CODE_LEN it.code ∧ FieldOk MAX_NAME_LEN it.name ∧
    (-2147483648 ≤ it.quantity ∧ it.quantity ≤ 2147483647) ∧
    ReadsBack E it.unitPrice ∧ ReadsBack E it.subtotal ∧
    (recordLine E it).length ≤ 254

/-- What `fgets(line, 256, file)` stores of a line of at most 255 characters:
the line with its newline, or the line alone when it has 255 characters (the
newline is then read on its own). -/
def chunkOf (l : List Char) : List Char :=
  if l.length ≤ 254 then l ++ ['\n'] else l

/-- The pieces of a file that `loadFromFile` takes for records, in order: the
file has the lines `lines`, each ended by a newline, and then the characters
`last` without a newline after them. -/
def recordChunks (lines : List (List Char)) (last : List Char) : List (List Char) :=
  (lines.map chunkOf ++ [last]).filter (fun ch => decide ('|' ∈ ch))

/-- The first two fields of a record stay inside `code[10]` and `name[50]`:
the text before the first pipe has fewer than `MAX_CODE_LEN` characters and,
when it is not empty, the text from there to the next pipe has fewer than
`MAX_NAME_LEN`. -/
def FieldsFit (chunk : List Char) : Prop :=
  (chunk.takeWhile (fun c => c ≠ '|')).length < MAX_CODE_LEN ∧
    (chunk.takeWhile (fun c => c ≠ '|') = [] ∨
      (((chunk.dropWhile (fun c => c ≠ '|')).drop 1).takeWhile (fun c => c ≠ '|')).length <
        MAX_NAME_LEN)

instance (chunk : List Char) : Decidable (FieldsFit chunk) := by
  unfold FieldsFit
  infer_instance

/-! ## Sample data -/

/-- A one-item cart whose stored subtotal is 600. -/
def billExample : Nat → Item ℚ :=
  fun _ => ⟨"A1".toList, "Pen".toList, 6, 100, 600⟩

def itemA : Item Binary32 :=
  ⟨"A1".toList, "Pen".toList, 10, Binary32.fin false (5 / 2), Binary32.fin false 25⟩
def itemB : Item Binary32 :=
  ⟨"B2".toList, "Ink".toList, 2, Binary32.fin false 4, Binary32.fin false 8⟩
def itemC : Item Binary32 :=
  ⟨"C3".toList, "Pad".toList, 1, Binary32.fin false 3, Binary32.fin false 3⟩

/-- A cart holding the three sample items. -/
def demoCart : Cart Binary32 :=
  ⟨fun i => if i = 0 then itemA else if i = 1 then itemB else itemC, 3⟩

/-- A cart whose amounts are not whole in binary: the `float`s nearest to
19.99, to 39.98 and to 0.01. -/
def priceCart : Cart Binary32 :=
  ⟨fun i =>
    if i = 0 then
      ⟨"A1".toList, "Pen".toList, 2, Binary32.fin false (10480517 / 524288),
        Binary32.fin false (10480517 / 262144)⟩
    else
      ⟨"B2".toList, "Ink".toList, 1, Binary32.fin false (5368709 / 536870912),
        Binary32.fin false (5368709 / 536870912)⟩, 2⟩

/-- An empty cart. -/
def emptyCart : Cart Binary32 := ⟨fun _ => default, 0⟩

/-- The input of a complete add of item `A1`. -/
def addA1Input : List Char := "A1\nPen\n10\n2.50\n".toList

/-- The cart after adding item `A1` to the empty cart. -/
def cartA1 : Cart Binary32 := ((addItem binary32 emptyCart addA1Input).getD (emptyCart, [])).1

/-- The input of an update of item `B2`, choice 2, whose new unit price is
entered as `nan`. -/
def updateNanInput : List Char := "B2\n2\nnan\n".toList

/-- The input of a complete add of an item priced 0.001. -/
def addCheapInput : List Char := "A1\nPen\n1\n0.001\n".toList

/-- The cart after adding that item to the empty cart. -/
def cartCheap : Cart Binary32 :=
  ((addItem binary32 emptyCart addCheapInput).getD (emptyCart, [])).1

/-- The input of a complete add of an item whose price is entered as `nan`. -/
def addNanInput : List Char := "A1\nPen\n1\nnan\n".toList

/-- The cart after adding that item to the empty cart. -/
def cartNan : Cart Binary32 :=
  ((addItem binary32 emptyCart addNanInput).getD (emptyCart, [])).1

/-- A cart file of one record whose first field has sixteen characters. -/
def overlongCodeFile : List Char := "ABCDEFGHIJKLMNOP|Pen|1|2.50|2.50\n".toList

/-- A single line of 273 characters: a record, 237 spaces, and a second
record starting at character 256. -/
def longLine : List Char :=
  "A1|Pen|1|2.50|2.50".toList ++ List.replicate 237 ' ' ++ "B2|Ink|2|4.00|8.00".toList

/-- A cart file holding three records and the text of a receipt; the third
line has 255 characters, the last line has no newline after it. -/
def receiptLines : List (List Char) :=
  ["A1|Pen|10|2.50|25.00".toList, "----------------------------------".toList,
    "C3|Pad|1|3.00|3.00".toList ++ List.replicate 237 ' ', "Total: $36.00".toList]

/-- The last line of that file. -/
def receiptLast : List Char := "B2|Ink|2|4.00|8.00".toList

/-- The cart `c1` is the cart `c` with the parses of the record pieces `recs`
stored from slot `c.count` on, one per slot, up to the capacity; the other
slots are those of `c`. -/
def LoadedFrom {F : Type} (E : FloatEnv F) (junk : Nat → Item F) (c : Cart F)
    (recs : List (List Char)) (c1 : Cart F) : Prop :=
  c1.count = c.count + min recs.length (MAX_ITEMS - c.count) ∧
    ∀ k, (c.count ≤ k ∧ k < c1.count →
        sscanfItem E (junk k) (recs.getD (k - c.count) []) = some (c1.arr k)) ∧
      (¬ (c.count ≤ k ∧ k < c1.count) → c1.arr k = c.arr k)

/-! ## Lookup -/

theorem findLoop_eq_neg_one {F : Type} (arr : Nat → Item F) (code : List Char) (n i : Nat) :
    findLoop arr code n i = -1 ↔ ∀ j, i ≤ j → j < i + n → (arr j).code ≠ code := by
  induction n generalizing i with
  | zero =>
    simp only [findLoop, true_iff]
    intro j h1 h2
    omega
  | succ n ih =>
    simp only [findLoop]
    by_cases h : (arr i).code = code
    · simp only [h, if_true]
      constructor
      · intro h0
        omega
      · intro h0
        exact absurd h (h0 i (le_refl i) (by omega))
    · simp only [h, if_false, ih]
      constructor
      · intro h0 j h1 h2
        rcases Nat.eq_or_lt_of_le h1 with h3 | h3
        · subst h3
          exact h
        · exact h0 j h3 (by omega)
      · intro h0 j h1 h2
        exact h0 j (by omega) (by omega)

theorem findLoop_eq_index {F : Type} (arr : Nat → Item F) (code : List Char) (n i k : Nat) :
    findLoop arr code n i = (k : Int) ↔
      i ≤ k ∧ k < i + n ∧ (arr k).code = code ∧ ∀ j, i ≤ j → j < k → (arr j).code ≠ code := by
  induction n generalizing i with
  | zero =>
    simp only [findLoop]
    constructor
    · intro h0
      omega
    · intro h0
      omega
  | succ n ih =>
    simp only [findLoop]
    by_cases h : (arr i).code = code
    · simp only [h, if_true]
      constructor
      · intro h0
        have hik : i = k := by exact_mod_cast h0
        subst hik
        refine ⟨le_refl _, by omega, h, ?_⟩
        intro j h1 h2
        omega
      · rintro ⟨h1, _, _, h4⟩
        rcases Nat.eq_or_lt_of_le h1 with h5 | h5
        · rw [h5]
        · exact absurd h (h4 i (le_refl i) h5)
    · simp only [h, if_false, ih]
      constructor
      · rintro ⟨h1, h2, h3, h4⟩
        refine ⟨by omega, by omega, h3, ?_⟩
        intro j h5 h6
        rcases Nat.eq_or_lt_of_le h5 with h7 | h7
        · subst h7
          exact h
        · exact h4 j h7 h6
      · rintro ⟨h1, h2, h3, h4⟩
        have hne : i ≠ k := by
          intro h5
          subst h5
          exact h h3
        refine ⟨by omega, by omega, h3, ?_⟩
        intro j h5 h6
        exact h4 j (by omega) h6

theorem findLoop_cases {F : Type} (arr : Nat → Item F) (code : List Char) (n i : Nat) :
    findLoop arr code n i = -1 ∨ ∃ k : Nat, findLoop arr code n i = (k : Int) := by
  induction n generalizing i with
  | zero => exact Or.inl rfl
  | succ n ih =>
    simp only [findLoop]
    by_cases h : (arr i).code = code
    · simp only [h, if_true]
      exact Or.inr ⟨i, rfl⟩
    · simp only [h, if_false]
      exact ih (i + 1)

theorem find_eq_index_iff {F : Type} (arr : Nat → Item F) (count : Nat) (code : List Char)
    (i : Nat) :
    findItemIndexByCode arr count code = (i : Int) ↔
      (i < count ∧ (arr i).code = code ∧ ∀ j, j < i → (arr j).code ≠ code) := by
  unfold findItemIndexByCode
  rw [findLoop_eq_index]
  constructor
  · rintro ⟨_, h2, h3, h4⟩
    exact ⟨by omega, h3, fun j hj => h4 j (Nat.zero_le j) hj⟩
  · rintro ⟨h1, h2, h3⟩
    exact ⟨Nat.zero_le i, by omega, h2, fun j _ hj => h3 j hj⟩

theorem find_eq_neg_one_iff {F : Type} (arr : Nat → Item F) (count : Nat) (code : List Char) :
    findItemIndexByCode arr count code = -1 ↔ ∀ i, i < count → (arr i).code ≠ code := by
  unfold findItemIndexByCode
  rw [findLoop_eq_neg_one]
  constructor
  · intro h i hi
    exact h i (Nat.zero_le i) (by omega)
  · intro h j _ hj
    exact h j (by omega)

theorem find_cases {F : Type} (arr : Nat → Item F) (count : Nat) (code : List Char) :
    findItemIndexByCode arr count code = -1 ∨
      ∃ i : Nat, findItemIndexByCode arr count code = (i : Int) :=
  findLoop_cases arr code count 0

/-- C7. `findItemIndexByCode` returns the index `i` exactly when `i` is the
smallest index below `count` whose code equals the given code character for
character, it returns -1 exactly when no item below `count` has that code,
and it returns nothing else. -/
theorem findItemIndexByCode_first_match {F : Type} (arr : Nat → Item F) (count : Nat)
    (code : List Char) :
    (∀ i : Nat, findItemIndexByCode arr count code = (i : Int) ↔
      (i < count ∧ (arr i).code = code ∧ ∀ j, j < i → (arr j).code ≠ code)) ∧
    (findItemIndexByCode arr count code = -1 ↔ ∀ i, i < count → (arr i).code ≠ code) ∧
    (findItemIndexByCode arr count code = -1 ∨
      ∃ i : Nat, findItemIndexByCode arr count code = (i : Int)) := by
  refine ⟨?_, ?_, findLoop_cases arr code count 0⟩
  · intro i
    unfold findItemIndexByCode
    rw [findLoop_eq_index]
    constructor
    · rintro ⟨_, h2, h3, h4⟩
      exact ⟨by omega, h3, fun j hj => h4 j (Nat.zero_le j) hj⟩
    · rintro ⟨h1, h2, h3⟩
      exact ⟨Nat.zero_le i, by omega, h2, fun j _ hj => h3 j hj⟩
  · unfold findItemIndexByCode
    rw [findLoop_eq_neg_one]
    constructor
    · intro h i hi
      exact h i (Nat.zero_le i) (by omega)
    · intro h j _ hj
      exact h j (by omega)


/-! ## Billing -/

theorem foldl_subtotal_eq_sum (arr : Nat → Item ℚ) (count : Nat) (a : ℚ) :
    (List.range count).foldl (fun t i => t + (arr i).subtotal) a =
      a + ∑ i in Finset.range count, (arr i).subtotal := by
  induction count with
  | zero => simp
  | succ n ih =>
    rw [List.range_succ, List.foldl_append, ih, Finset.sum_range_succ]
    simp only [List.foldl_cons, List.foldl_nil]
    ring

/-- C1. `calculateFinalBill` stores as discount one tenth of the sum of the
stored subtotals of the first `count` items when that sum is at least 500 and
0 when it is below 500, and returns the sum minus the discount; a cart whose
sum is 600 gives discount 60 and final bill 540. -/
theorem calculateFinalBill_discount_law (arr : Nat → Item ℚ) (count : Nat) :
    (∑ i in Finset.range count, (arr i).subtotal ≥ 500 →
      (calculateFinalBill arr count).2 =
        (∑ i in Finset.range count, (arr i).subtotal) * (1 / 10)) ∧
    (∑ i in Finset.range count, (arr i).subtotal < 500 →
      (calculateFinalBill arr count).2 = 0) ∧
    (calculateFinalBill arr count).1 =
      ∑ i in Finset.range count, (arr i).subtotal - (calculateFinalBill arr count).2 ∧
    (∑ i in Finset.range count, (arr i).subtotal = 600 →
      calculateFinalBill arr count = (540, 60)) := by
  have hsum := foldl_subtotal_eq_sum arr count 0
  rw [zero_add] at hsum
  simp only [calculateFinalBill, hsum, DISCOUNT_THRESHOLD, DISCOUNT_RATE]
  refine ⟨?_, ?_, trivial, ?_⟩
  · intro h
    rw [if_pos h]
  · intro h
    rw [if_neg (not_le.mpr h)]
  · intro h
    rw [h]
    norm_num

/-! ## Removal -/

theorem foldl_shift_apply {F : Type} (n : Nat) (a : Nat → Item F) (i j : Nat) :
    (List.range' i n).foldl (fun a i => Function.update a i (a (i + 1))) a j =
      if i ≤ j ∧ j < i + n then a (j + 1) else a j := by
  induction n generalizing a i with
  | zero =>
    have h : ¬ (i ≤ j ∧ j < i + 0) := by omega
    simp only [List.range', List.foldl_nil, if_neg h]
  | succ n ih =>
    simp only [List.range', List.foldl_cons]
    rw [ih]
    by_cases h1 : i + 1 ≤ j ∧ j < i + 1 + n
    · have h2 : i ≤ j ∧ j < i + (n + 1) := by omega
      have h3 : j + 1 ≠ i := by omega
      rw [if_pos h1, if_pos h2, Function.update_noteq h3]
    · rw [if_neg h1]
      by_cases h4 : j = i
      · subst h4
        have h2 : j ≤ j ∧ j < j + (n + 1) := by omega
        rw [if_pos h2, Function.update_same]
      · have h2 : ¬ (i ≤ j ∧ j < i + (n + 1)) := by omega
        rw [if_neg h2, Function.update_noteq h4]

theorem shiftDown_apply {F : Type} (arr : Nat → Item F) (count index j : Nat) :
    shiftDown arr count index j =
      if index ≤ j ∧ j < index + (count - 1 - index) then arr (j + 1) else arr j :=
  foldl_shift_apply (count - 1 - index) arr index j

theorem find_index_lt {F : Type} (arr : Nat → Item F) (count : Nat) (code : List Char) (i : Nat)
    (h : findItemIndexByCode arr count code = (i : Int)) : i < count := by
  unfold findItemIndexByCode at h
  rw [findLoop_eq_index] at h
  omega

/-- C3. When the entered code is found at index `i` and the confirmation
read is 1, `removeItem` returns a cart of size `count - 1` in which every
item originally at a position `j < i` is unchanged at position `j` and every
item originally at a position `j > i` (below `count`) is at position `j - 1`. -/
theorem removeItem_confirmed_shifts {F : Type} (c : Cart F) (s s1 s2 code : List Char) (i : Nat)
    (hcode : getString MAX_CODE_LEN s = some (code, s1))
    (hfind : findItemIndexByCode c.arr c.count code = (i : Int))
    (hconfirm : getValidInteger "" s1 = some (1, s2)) :
    ∃ c1 : Cart F, removeItem c s = some (c1, s2) ∧ c1.count = c.count - 1 ∧
      (∀ j, j < i → c1.arr j = c.arr j) ∧
      (∀ j, i < j → j < c.count → c1.arr (j - 1) = c.arr j) := by
  have hlt : i < c.count := find_index_lt c.arr c.count code i hfind
  have hne : c.count ≠ 0 := by omega
  have hidx : (i : Int) ≠ -1 := by omega
  refine ⟨⟨shiftDown c.arr c.count i, c.count - 1⟩, ?_, rfl, ?_, ?_⟩
  · simp [removeItem, hne, hcode, hfind, hconfirm, hidx]
  · intro j hj
    have h : ¬ (i ≤ j ∧ j < i + (c.count - 1 - i)) := by omega
    simp only [shiftDown_apply, if_neg h]
  · intro j h1 h2
    have h : i ≤ j - 1 ∧ j - 1 < i + (c.count - 1 - i) := by omega
    have h3 : j - 1 + 1 = j := by omega
    simp only [shiftDown_apply, if_pos h, h3]

/-- C8. `removeItem` returns the cart as it was when the cart is empty, when
the entered code is not found, and when the confirmation read is not 1; in
that last case the code is still found at the same index in the returned
cart. -/
theorem removeItem_unchanged {F : Type} (c : Cart F) (s : List Char) :
    (c.count = 0 → removeItem c s = some (c, s)) ∧
    (∀ code s1, getString MAX_CODE_LEN s = some (code, s1) →
      findItemIndexByCode c.arr c.count code = -1 →
      ∃ rest, removeItem c s = some (c, rest)) ∧
    (∀ code s1 (i : Nat) confirm s2, getString MAX_CODE_LEN s = some (code, s1) →
      findItemIndexByCode c.arr c.count code = (i : Int) →
      getValidInteger "" s1 = some (confirm, s2) → confirm ≠ 1 →
      ∃ c1 : Cart F, removeItem c s = some (c1, s2) ∧ c1.count = c.count ∧
        c1.arr = c.arr ∧ findItemIndexByCode c1.arr c1.count code = (i : Int)) := by
  refine ⟨?_, ?_, ?_⟩
  · intro h
    simp [removeItem, h]
  · intro code s1 hcode hfind
    by_cases h : c.count = 0
    · exact ⟨s, by simp [removeItem, h]⟩
    · exact ⟨s1, by simp [removeItem, h, hcode, hfind]⟩
  · intro code s1 i confirm s2 hcode hfind hconfirm hne1
    have hlt : i < c.count := find_index_lt c.arr c.count code i hfind
    have hne : c.count ≠ 0 := by omega
    have hidx : (i : Int) ≠ -1 := by omega
    exact ⟨c, by simp [removeItem, hne, hcode, hfind, hconfirm, hidx, hne1], rfl, rfl, hfind⟩

/-! ## Insertion -/

theorem findLoop_congr {F : Type} (a b : Nat → Item F) (code : List Char) (n i : Nat)
    (h : ∀ j, i ≤ j → j < i + n → a j = b j) :
    findLoop a code n i = findLoop b code n i := by
  induction n generalizing i with
  | zero => rfl
  | succ n ih =>
    simp only [findLoop]
    rw [h i (le_refl i) (by omega), ih (i + 1) (fun j h1 h2 => h j (by omega) (by omega))]

theorem find_update_at_count {F : Type} (arr : Nat → Item F) (count : Nat) (it : Item F)
    (code : List Char) :
    findItemIndexByCode (Function.update arr count it) count code =
      findItemIndexByCode arr count code := by
  unfold findItemIndexByCode
  apply findLoop_congr
  intro j _ h2
  have h : j ≠ count := by omega
  rw [Function.update_noteq h]

/-- C2. When the code read by `addItem` equals the code of an item already
in the cart, `addItem` returns with the same count and with each of the
first `count` items identical to before. -/
theorem addItem_duplicate_rejected {F : Type} (E : FloatEnv F) (c : Cart F) (s s1 code : List Char)
    (hcode : getString MAX_CODE_LEN s = some (code, s1))
    (hdup : ∃ i, i < c.count ∧ (c.arr i).code = code) :
    ∃ (c1 : Cart F) (rest : List Char), addItem E c s = some (c1, rest) ∧
      c1.count = c.count ∧ (∀ j, j < c.count → c1.arr j = c.arr j) ∧
      c1.items = c.items := by
  by_cases hfull : c.count ≥ MAX_ITEMS
  · exact ⟨c, s, by simp [addItem, hfull], rfl, fun _ _ => rfl, rfl⟩
  · have hfound : findItemIndexByCode c.arr c.count code ≠ -1 := by
      intro h
      rw [find_eq_neg_one_iff c.arr c.count code] at h
      obtain ⟨i, hi, hc⟩ := hdup
      exact h i hi hc
    have hkeep : ∀ j, j < c.count →
        Function.update c.arr c.count { c.arr c.count with code := code } j = c.arr j := by
      intro j hj
      have h : j ≠ c.count := by omega
      rw [Function.update_noteq h]
    refine ⟨⟨Function.update c.arr c.count { c.arr c.count with code := code }, c.count⟩,
      s1, ?_, rfl, hkeep, ?_⟩
    · simp [addItem, hfull, hcode, find_update_at_count, hfound]
    · simp only [Cart.items]
      apply List.map_congr_left
      intro j hj
      exact hkeep j (List.mem_range.mp hj)

/-! ## Effect of the cart operations -/

theorem addItem_effect {F : Type} (E : FloatEnv F) (c c1 : Cart F) (s rest : List Char)
    (h : addItem E c s = some (c1, rest)) :
    (c1.count = c.count ∧ ∀ j, j < c.count → c1.arr j = c.arr j) ∨
    (c1.count = c.count + 1 ∧ (∀ j, j < c.count → c1.arr j = c.arr j) ∧
      findItemIndexByCode c.arr c.count (c1.arr c.count).code = -1 ∧
      (c1.arr c.count).SubtotalOk E) := by
  unfold addItem at h
  split at h
  · simp only [Option.some.injEq, Prod.mk.injEq] at h
    rw [← h.1]
    exact Or.inl ⟨rfl, fun _ _ => rfl⟩
  · split at h
    · exact absurd h (by simp)
    · rename_i code s1 _
      simp only [Function.update_same, find_update_at_count] at h
      split at h
      · simp only [Option.some.injEq, Prod.mk.injEq] at h
        rw [← h.1]
        refine Or.inl ⟨rfl, ?_⟩
        intro j hj
        have hne : j ≠ c.count := by omega
        simp only [Function.update_noteq hne]
      · rename_i hnot
        split at h
        · exact absurd h (by simp)
        · split at h
          · exact absurd h (by simp)
          · split at h
            · exact absurd h (by simp)
            · simp only [Option.some.injEq, Prod.mk.injEq] at h
              rw [← h.1]
              refine Or.inr ⟨rfl, ?_, ?_, ?_⟩
              · intro j hj
                have hne : j ≠ c.count := by omega
                simp only [Function.update_noteq hne]
              · simp only [Function.update_same]
                exact not_not.mp hnot
              · simp only [Function.update_same, Item.SubtotalOk, calculateSubtotal]

theorem updateSwitch_effect {F : Type} (E : FloatEnv F) (c c1 : Cart F) (index : Nat)
    (choice : Int) (s rest : List Char)
    (h : updateSwitch E c index choice s = some (c1, rest)) :
    c1.count = c.count ∧ (∀ j, (c1.arr j).code = (c.arr j).code) ∧
      (∀ j, j ≠ index → c1.arr j = c.arr j) ∧
      (c1.arr index = c.arr index ∨ (c1.arr index).SubtotalOk E) ∧
      ((choice = 1 ∨ choice = 2 ∨ choice = 3) → (c1.arr index).SubtotalOk E) := by
  unfold updateSwitch at h
  split at h
  · split at h
    · exact absurd h (by simp)
    · simp only [Option.some.injEq, Prod.mk.injEq] at h
      rw [← h.1]
      refine ⟨rfl, ?_, ?_, ?_, ?_⟩
      · intro j
        by_cases hj : j = index
        · subst hj
          simp only [Function.update_same]
        · simp only [Function.update_noteq hj]
      · intro j hj
        simp only [Function.update_noteq hj]
      · right
        simp only [Function.update_same, Item.SubtotalOk, calculateSubtotal]
      · intro _
        simp only [Function.update_same, Item.SubtotalOk, calculateSubtotal]
  · split at h
    · split at h
      · exact absurd h (by simp)
      · simp only [Option.some.injEq, Prod.mk.injEq] at h
        rw [← h.1]
        refine ⟨rfl, ?_, ?_, ?_, ?_⟩
        · intro j
          by_cases hj : j = index
          · subst hj
            simp only [Function.update_same]
          · simp only [Function.update_noteq hj]
        · intro j hj
          simp only [Function.update_noteq hj]
        · right
          simp only [Function.update_same, Item.SubtotalOk, calculateSubtotal]
        · intro _
          simp only [Function.update_same, Item.SubtotalOk, calculateSubtotal]
    · split at h
      · split at h
        · exact absurd h (by simp)
        · split at h
          · exact absurd h (by simp)
          · simp only [Option.some.injEq, Prod.mk.injEq] at h
            rw [← h.1]
            refine ⟨rfl, ?_, ?_, ?_, ?_⟩
            · intro j
              by_cases hj : j = index
              · subst hj
                simp only [Function.update_same]
              · simp only [Function.update_noteq hj]
            · intro j hj
              simp only [Function.update_noteq hj]
            · right
              simp only [Function.update_same, Item.SubtotalOk, calculateSubtotal]
            · intro _
              simp only [Function.update_same, Item.SubtotalOk, calculateSubtotal]
      · rename_i h1 h2 h3
        simp only [Option.some.injEq, Prod.mk.injEq] at h
        rw [← h.1]
        refine ⟨rfl, fun _ => rfl, fun _ _ => rfl, Or.inl rfl, ?_⟩
        intro hc
        rcases hc with hc | hc | hc
        · exact absurd hc h1
        · exact absurd hc h2
        · exact absurd hc h3

theorem updateItem_effect {F : Type} (E : FloatEnv F) (c c1 : Cart F) (s rest : List Char)
    (h : updateItem E c s = some (c1, rest)) :
    c1.count = c.count ∧ (∀ j, (c1.arr j).code = (c.arr j).code) ∧
      (∀ j, c1.arr j = c.arr j ∨ (c1.arr j).SubtotalOk E) := by
  unfold updateItem at h
  split at h
  · simp only [Option.some.injEq, Prod.mk.injEq] at h
    rw [← h.1]
    exact ⟨rfl, fun _ => rfl, fun _ => Or.inl rfl⟩
  · split at h
    · exact absurd h (by simp)
    · simp only at h
      split at h
      · simp only [Option.some.injEq, Prod.mk.injEq] at h
        rw [← h.1]
        exact ⟨rfl, fun _ => rfl, fun _ => Or.inl rfl⟩
      · split at h
        · exact absurd h (by simp)
        · rename_i _ _ code _ _ _ _ _ _ _
          obtain ⟨h1, h2, h3, h4, _⟩ := updateSwitch_effect E _ _ _ _ _ _ h
          refine ⟨h1, h2, ?_⟩
          intro j
          by_cases hj : j = (findItemIndexByCode c.arr c.count code).toNat
          · rw [hj]
            exact h4
          · exact Or.inl (h3 j hj)

theorem removeItem_effect {F : Type} (c c1 : Cart F) (s rest : List Char)
    (h : removeItem c s = some (c1, rest)) :
    (c1.count = c.count ∧ c1.arr = c.arr) ∨
    (∃ i, i < c.count ∧ c1.count = c.count - 1 ∧
      ∀ j, c1.arr j = if i ≤ j ∧ j < c.count - 1 then c.arr (j + 1) else c.arr j) := by
  unfold removeItem at h
  split at h
  · simp only [Option.some.injEq, Prod.mk.injEq] at h
    rw [← h.1]
    exact Or.inl ⟨rfl, rfl⟩
  · split at h
    · exact absurd h (by simp)
    · rename_i code s1 _
      simp only at h
      split at h
      · simp only [Option.some.injEq, Prod.mk.injEq] at h
        rw [← h.1]
        exact Or.inl ⟨rfl, rfl⟩
      · rename_i hidx
        split at h
        · exact absurd h (by simp)
        · split at h
          · simp only [Option.some.injEq, Prod.mk.injEq] at h
            rw [← h.1]
            exact Or.inl ⟨rfl, rfl⟩
          · simp only [Option.some.injEq, Prod.mk.injEq] at h
            rw [← h.1]
            rcases find_cases c.arr c.count code with h0 | ⟨i, hi⟩
            · exact absurd h0 hidx
            · have hlt : i < c.count := find_index_lt c.arr c.count code i hi
              refine Or.inr ⟨i, hlt, rfl, ?_⟩
              intro j
              simp only [hi, Int.toNat_ofNat, shiftDown_apply]
              have hiff : (i ≤ j ∧ j < i + (c.count - 1 - i)) ↔ (i ≤ j ∧ j < c.count - 1) := by
                omega
              simp only [hiff]

/-! ## Invariants -/

theorem unique_after_add {F : Type} (E : FloatEnv F) (c c1 : Cart F) (s rest : List Char)
    (hu : UniqueCodes c)
    (h : addItem E c s = some (c1, rest)) : UniqueCodes c1 := by
  rcases addItem_effect E c c1 s rest h with ⟨hc, hk⟩ | ⟨hc, hk, hf, _⟩
  · intro i j hi hj hij
    rw [hc] at hi hj
    rw [hk i hi, hk j hj] at hij
    exact hu i j hi hj hij
  · have hnew : ∀ j, j < c.count → (c1.arr j).code ≠ (c1.arr c.count).code := by
      intro j hj
      rw [hk j hj]
      exact ((find_eq_neg_one_iff c.arr c.count _).mp hf) j hj
    intro i j hi hj hij
    rw [hc] at hi hj
    rcases Nat.lt_succ_iff_lt_or_eq.mp hi with hi1 | hi1
    · rcases Nat.lt_succ_iff_lt_or_eq.mp hj with hj1 | hj1
      · rw [hk i hi1, hk j hj1] at hij
        exact hu i j hi1 hj1 hij
      · rw [hj1] at hij
        exact absurd hij (hnew i hi1)
    · rcases Nat.lt_succ_iff_lt_or_eq.mp hj with hj1 | hj1
      · rw [hi1] at hij
        exact absurd hij.symm (hnew j hj1)
      · rw [hi1, hj1]

theorem unique_after_update {F : Type} (E : FloatEnv F) (c c1 : Cart F) (s rest : List Char)
    (hu : UniqueCodes c)
    (h : updateItem E c s = some (c1, rest)) : UniqueCodes c1 := by
  obtain ⟨hc, hcode, _⟩ := updateItem_effect E c c1 s rest h
  intro i j hi hj hij
  rw [hc] at hi hj
  rw [hcode i, hcode j] at hij
  exact hu i j hi hj hij

theorem unique_after_remove {F : Type} (c c1 : Cart F) (s rest : List Char) (hu : UniqueCodes c)
    (h : removeItem c s = some (c1, rest)) : UniqueCodes c1 := by
  rcases removeItem_effect c c1 s rest h with ⟨hc, ha⟩ | ⟨k, hk, hc, ha⟩
  · intro i j hi hj hij
    rw [hc] at hi hj
    rw [ha] at hij
    exact hu i j hi hj hij
  · intro i j hi hj hij
    rw [hc] at hi hj
    rw [ha i, ha j] at hij
    by_cases h1 : k ≤ i ∧ i < c.count - 1
    · by_cases h2 : k ≤ j ∧ j < c.count - 1
      · rw [if_pos h1, if_pos h2] at hij
        have := hu (i + 1) (j + 1) (by omega) (by omega) hij
        omega
      · rw [if_pos h1, if_neg h2] at hij
        have := hu (i + 1) j (by omega) (by omega) hij
        omega
    · by_cases h2 : k ≤ j ∧ j < c.count - 1
      · rw [if_neg h1, if_pos h2] at hij
        have := hu i (j + 1) (by omega) (by omega) hij
        omega
      · rw [if_neg h1, if_neg h2] at hij
        exact hu i j (by omega) (by omega) hij

theorem reachable_unique {F : Type} (E : FloatEnv F) (c : Cart F)
    (h : Reachable E c) : UniqueCodes c := by
  induction h with
  | empty arr =>
    intro i j hi
    exact absurd hi (Nat.not_lt_zero i)
  | add c c1 s rest _ hstep ih => exact unique_after_add E c c1 s rest ih hstep
  | update c c1 s rest _ hstep ih => exact unique_after_update E c c1 s rest ih hstep
  | remove c c1 s rest _ hstep ih => exact unique_after_remove c c1 s rest ih hstep

theorem subtotals_after_add {F : Type} (E : FloatEnv F) (c c1 : Cart F) (s rest : List Char)
    (hs : SubtotalsOk E c)
    (h : addItem E c s = some (c1, rest)) : SubtotalsOk E c1 := by
  rcases addItem_effect E c c1 s rest h with ⟨hc, hk⟩ | ⟨hc, hk, _, hok⟩
  · intro i hi
    rw [hc] at hi
    rw [hk i hi]
    exact hs i hi
  · intro i hi
    rw [hc] at hi
    rcases Nat.lt_succ_iff_lt_or_eq.mp hi with hi1 | hi1
    · rw [hk i hi1]
      exact hs i hi1
    · rw [hi1]
      exact hok

theorem subtotals_after_update {F : Type} (E : FloatEnv F) (c c1 : Cart F) (s rest : List Char)
    (hs : SubtotalsOk E c)
    (h : updateItem E c s = some (c1, rest)) : SubtotalsOk E c1 := by
  obtain ⟨hc, _, hk⟩ := updateItem_effect E c c1 s rest h
  intro i hi
  rw [hc] at hi
  rcases hk i with h1 | h1
  · rw [h1]
    exact hs i hi
  · exact h1

theorem subtotals_after_remove {F : Type} (E : FloatEnv F) (c c1 : Cart F) (s rest : List Char)
    (hs : SubtotalsOk E c)
    (h : removeItem c s = some (c1, rest)) : SubtotalsOk E c1 := by
  rcases removeItem_effect c c1 s rest h with ⟨hc, ha⟩ | ⟨k, hk, hc, ha⟩
  · intro i hi
    rw [hc] at hi
    rw [ha]
    exact hs i hi
  · intro i hi
    rw [hc] at hi
    rw [ha i]
    by_cases h1 : k ≤ i ∧ i < c.count - 1
    · rw [if_pos h1]
      exact hs (i + 1) (by omega)
    · rw [if_neg h1]
      exact hs i (by omega)

theorem reachable_subtotals {F : Type} (E : FloatEnv F) (c : Cart F)
    (h : Reachable E c) : SubtotalsOk E c := by
  induction h with
  | empty arr =>
    intro i hi
    exact absurd hi (Nat.not_lt_zero i)
  | add c c1 s rest _ hstep ih => exact subtotals_after_add E c c1 s rest ih hstep
  | update c c1 s rest _ hstep ih => exact subtotals_after_update E c c1 s rest ih hstep
  | remove c c1 s rest _ hstep ih => exact subtotals_after_remove E c c1 s rest ih hstep

/-- What holds of the subtotals in every float environment: after an
`addItem` that increased the count, and after an `updateItem` whose choice was
1, 2 or 3, the stored subtotal is the value that `quantity * unitPrice`
computes, and so it is for every live item of a cart reached from an empty
cart.  Whether the C comparison `==` then holds is another matter: it does
not when that value is a NaN. -/
theorem stored_subtotal_is_product {F : Type} (E : FloatEnv F) :
    (∀ (c c1 : Cart F) (s rest : List Char), addItem E c s = some (c1, rest) →
      c1.count = c.count + 1 →
      (c1.arr c.count).subtotal =
        E.mulInt (c1.arr c.count).quantity (c1.arr c.count).unitPrice) ∧
    (∀ (c c1 : Cart F) (s s1 s2 rest code : List Char) (i : Nat) (choice : Int),
      getString MAX_CODE_LEN s = some (code, s1) →
      findItemIndexByCode c.arr c.count code = (i : Int) →
      getValidInteger "Enter your choice: " s1 = some (choice, s2) →
      (choice = 1 ∨ choice = 2 ∨ choice = 3) →
      updateItem E c s = some (c1, rest) →
      (c1.arr i).subtotal = E.mulInt (c1.arr i).quantity (c1.arr i).unitPrice) ∧
    (∀ c : Cart F, Reachable E c → ∀ i, i < c.count →
      (c.arr i).subtotal = E.mulInt (c.arr i).quantity (c.arr i).unitPrice) := by
  refine ⟨?_, ?_, ?_⟩
  · intro c c1 s rest h hcount
    rcases addItem_effect E c c1 s rest h with ⟨hc, _⟩ | ⟨_, _, _, hok⟩
    · omega
    · exact hok
  · intro c c1 s s1 s2 rest code i choice hcode hfind hchoice hsel h
    have hlt : i < c.count := find_index_lt c.arr c.count code i hfind
    have hne : c.count ≠ 0 := by omega
    have hidx : (i : Int) ≠ -1 := by omega
    simp only [updateItem, hne, if_false, hcode, hfind, hidx, hchoice, Int.toNat_ofNat] at h
    exact (updateSwitch_effect E c c1 i choice s2 rest h).2.2.2.2 hsel
  · intro c hr i hi
    exact reachable_subtotals E c hr i hi


/-! ## Decimal digits -/

theorem digitChar_facts : ∀ d, d < 10 →
    (digitChar d).isDigit = true ∧ digitVal (digitChar d) = d ∧ digitChar d ≠ '\n' ∧
      digitChar d ≠ '|' ∧ digitChar d ≠ '-' ∧ digitChar d ≠ '+' ∧ isspace (digitChar d) = false := by
  decide

theorem isDigit_facts (c : Char) (h : c.isDigit = true) :
    c ≠ '\n' ∧ c ≠ '|' ∧ c ≠ '-' ∧ c ≠ '+' ∧ c ≠ '.' ∧ isspace c = false := by
  refine ⟨?_, ?_, ?_, ?_, ?_, ?_⟩
  · rintro rfl
    exact absurd h (by decide)
  · rintro rfl
    exact absurd h (by decide)
  · rintro rfl
    exact absurd h (by decide)
  · rintro rfl
    exact absurd h (by decide)
  · rintro rfl
    exact absurd h (by decide)
  · cases hs : isspace c
    · rfl
    · simp only [isspace, Bool.or_eq_true, decide_eq_true_eq] at hs
      rcases hs with ((((hs | hs) | hs) | hs) | hs) | hs <;>
        · subst hs
          exact absurd h (by decide)

theorem scanDigits_stop (a : Nat) (s : List Char)
    (h : ∀ c t, s = c :: t → c.isDigit = false) : scanDigits a s = (a, s) := by
  cases s with
  | nil => rfl
  | cons c t =>
    have hc := h c t rfl
    simp only [scanDigits, hc, Bool.false_eq_true, if_false]

theorem scanDigits_append (ds : List Char) (hds : ∀ c, c ∈ ds → c.isDigit = true)
    (a : Nat) (rest : List Char) :
    scanDigits a (ds ++ rest) =
      scanDigits (ds.foldl (fun v c => v * 10 + digitVal c) a) rest := by
  induction ds generalizing a with
  | nil => rfl
  | cons c t ih =>
    have hc : c.isDigit = true := hds c (List.mem_cons_self c t)
    simp only [List.cons_append, scanDigits, hc, if_true, List.foldl_cons]
    exact ih (fun d hd => hds d (List.mem_cons_of_mem c hd)) _

/-- What `natDigitsAux` yields with enough fuel: a non-empty run of digits in
front of the accumulator, whose value is `n` and whose length is minimal. -/
theorem natDigitsAux_spec (fuel : Nat) : ∀ (n : Nat) (acc : List Char), n < fuel →
    ∃ ds : List Char, natDigitsAux fuel n acc = ds ++ acc ∧ ds ≠ [] ∧
      (∀ c, c ∈ ds → c.isDigit = true) ∧
      (∀ a, ds.foldl (fun v c => v * 10 + digitVal c) a = a * 10 ^ ds.length + n) ∧
      (ds.length = 1 ∨ 10 ^ (ds.length - 1) ≤ n) := by
  induction fuel with
  | zero =>
    intro n acc h
    omega
  | succ fuel ih =>
    intro n acc h
    have hd := digitChar_facts (n % 10) (Nat.mod_lt n (by norm_num))
    by_cases h10 : n / 10 = 0
    · have hn : n < 10 := by omega
      have hmod : n % 10 = n := Nat.mod_eq_of_lt hn
      refine ⟨[digitChar (n % 10)], ?_, by simp, ?_, ?_, Or.inl rfl⟩
      · simp only [natDigitsAux, h10, if_true, List.singleton_append]
      · intro c hc
        rw [List.mem_singleton] at hc
        rw [hc]
        exact hd.1
      · intro a
        have hv := hd.2.1
        simp only [List.foldl_cons, List.foldl_nil, hv, List.length_singleton, pow_one]
        rw [hmod]
    · have hlt : n / 10 < fuel := by omega
      obtain ⟨ds, h1, h2, h3, h4, h5⟩ := ih (n / 10) (digitChar (n % 10) :: acc) hlt
      refine ⟨ds ++ [digitChar (n % 10)], ?_, by simp, ?_, ?_, Or.inr ?_⟩
      · simp only [natDigitsAux, h10, if_false, h1, List.append_assoc, List.singleton_append]
      · intro c hc
        rw [List.mem_append, List.mem_singleton] at hc
        rcases hc with hc | hc
        · exact h3 c hc
        · rw [hc]
          exact hd.1
      · intro a
        simp only [List.foldl_append, List.foldl_cons, List.foldl_nil, h4, hd.2.1,
          List.length_append, List.length_singleton, pow_succ]
        have := Nat.div_add_mod n 10
        nlinarith [Nat.div_add_mod n 10]
      · simp only [List.length_append, List.length_singleton, Nat.add_sub_cancel]
        have hpos : 1 ≤ ds.length := by
          cases ds with
          | nil => exact absurd rfl h2
          | cons _ _ => simp
        rcases h5 with h5 | h5
        · rw [h5, pow_one]
          omega
        · have h6 : ds.length = (ds.length - 1) + 1 := by omega
          rw [h6, pow_succ]
          have := Nat.div_add_mod n 10
          nlinarith

theorem natDigits_spec (n : Nat) :
    natDigits n ≠ [] ∧ (∀ c, c ∈ natDigits n → c.isDigit = true) ∧
      (∀ a rest, scanDigits a (natDigits n ++ rest) =
        scanDigits (a * 10 ^ (natDigits n).length + n) rest) ∧
      ((natDigits n).length = 1 ∨ 10 ^ ((natDigits n).length - 1) ≤ n) := by
  obtain ⟨ds, h1, h2, h3, h4, h5⟩ := natDigitsAux_spec (n + 1) n [] (Nat.lt_succ_self n)
  have h : natDigits n = ds := by
    unfold natDigits
    rw [h1, List.append_nil]
  rw [h]
  refine ⟨h2, h3, ?_, h5⟩
  intro a rest
  rw [scanDigits_append ds h3, h4]

theorem natDigits_length_le (n k : Nat) (hk : 1 ≤ k) (h : n < 10 ^ k) :
    (natDigits n).length ≤ k := by
  rcases (natDigits_spec n).2.2.2 with h1 | h1
  · omega
  · by_contra hcon
    have h2 : k ≤ (natDigits n).length - 1 := by omega
    have h3 : 10 ^ k ≤ 10 ^ ((natDigits n).length - 1) := Nat.pow_le_pow_right (by norm_num) h2
    omega

/-! ## Reading back what `fprintf` wrote -/

theorem scanSign_minus (t : List Char) : scanSign ('-' :: t) = (true, t) := rfl

theorem scanSign_other (c : Char) (t : List Char) (h1 : c ≠ '-') (h2 : c ≠ '+') :
    scanSign (c :: t) = (false, c :: t) := by
  unfold scanSign
  split
  · rename_i heq
    simp only [List.cons.injEq] at heq
    exact absurd heq.1 h1
  · rename_i heq
    simp only [List.cons.injEq] at heq
    exact absurd heq.1 h2
  · rfl

/-- The value of a run of digits read from the left. -/
theorem scanDigits_run (ds : List Char) (hds : ∀ c, c ∈ ds → c.isDigit = true)
    (sep : Char) (hsep : sep.isDigit = false) (tail : List Char) :
    scanDigits 0 (ds ++ sep :: tail) =
      (ds.foldl (fun v c => v * 10 + digitVal c) 0, sep :: tail) := by
  rw [scanDigits_append ds hds]
  apply scanDigits_stop
  intro c t h
  simp only [List.cons.injEq] at h
  rw [← h.1]
  exact hsep

theorem convertLong_digits (ds : List Char) (hne : ds ≠ [])
    (hds : ∀ c, c ∈ ds → c.isDigit = true) (neg : Bool)
    (sep : Char) (hsep : sep.isDigit = false) (tail : List Char) :
    convertLong ((if neg then ['-'] else []) ++ ds ++ sep :: tail) =
      some (clampLong (if neg then -((ds.foldl (fun v c => v * 10 + digitVal c) 0 : Nat) : Int)
        else ((ds.foldl (fun v c => v * 10 + digitVal c) 0 : Nat) : Int)), sep :: tail) := by
  cases ds with
  | nil => exact absurd rfl hne
  | cons d u =>
    have hd : d.isDigit = true := hds d (List.mem_cons_self d u)
    have hf := isDigit_facts d hd
    have hrun := scanDigits_run (d :: u) hds sep hsep tail
    simp only [List.cons_append] at hrun
    cases neg with
    | true =>
      have hsp : isspace '-' = false := by decide
      simp only [convertLong, if_true, List.cons_append, List.nil_append, List.singleton_append,
        List.dropWhile_cons, hsp, Bool.false_eq_true, if_false, scanSign_minus, hd, hrun]
    | false =>
      simp only [convertLong, Bool.false_eq_true, if_false, List.cons_append, List.nil_append,
        List.dropWhile_cons, hf.2.2.2.2.2, scanSign_other d _ hf.2.2.1 hf.2.2.2.1, hd, if_true,
        hrun]

theorem toInt32_clampLong (q : Int) (h1 : -2147483648 ≤ q) (h2 : q ≤ 2147483647) :
    toInt32 (clampLong q) = q := by
  have hc : clampLong q = q := by
    unfold clampLong
    rw [if_neg (by omega), if_neg (by omega)]
  rw [hc]
  unfold toInt32
  omega

theorem formatInt_eq (q : Int) :
    formatInt q = (if decide (q < 0) then ['-'] else []) ++ natDigits q.natAbs := by
  unfold formatInt
  by_cases h : q < 0
  · simp only [h, if_true, decide_True, List.singleton_append]
  · simp only [h, if_false, decide_False, List.nil_append, Bool.false_eq_true]

/-- The `%d` of `sscanf` reads back what the `%d` of `fprintf` wrote for an
`int`. -/
theorem scanInt_formatInt (q : Int) (h1 : -2147483648 ≤ q) (h2 : q ≤ 2147483647)
    (sep : Char) (hsep : sep.isDigit = false) (tail : List Char) :
    scanInt (formatInt q ++ sep :: tail) = some (q, sep :: tail) := by
  obtain ⟨hne, hds, hval, _⟩ := natDigits_spec q.natAbs
  have hfold : (natDigits q.natAbs).foldl (fun v c => v * 10 + digitVal c) 0 = q.natAbs := by
    have h3 := hval 0 (sep :: tail)
    rw [scanDigits_run _ hds sep hsep tail, scanDigits_stop] at h3
    · simpa using congrArg Prod.fst h3
    · intro c t h
      simp only [List.cons.injEq] at h
      rw [← h.1]
      exact hsep
  unfold scanInt
  rw [formatInt_eq, convertLong_digits _ hne hds _ sep hsep tail, hfold]
  by_cases h : q < 0
  · have habs : -((q.natAbs : Nat) : Int) = q := by omega
    simp only [h, decide_True, if_true, habs, toInt32_clampLong q h1 h2]
  · have habs : ((q.natAbs : Nat) : Int) = q := by omega
    simp only [h, decide_False, Bool.false_eq_true, if_false, habs, toInt32_clampLong q h1 h2]


theorem takeWhile_dropWhile_stop (p : Char → Bool) (f : List Char) (c : Char) (rest : List Char)
    (hf : ∀ x, x ∈ f → p x = true) (hc : p c = false) :
    (f ++ c :: rest).takeWhile p = f ∧ (f ++ c :: rest).dropWhile p = c :: rest := by
  induction f with
  | nil => simp [List.takeWhile, List.dropWhile, hc]
  | cons a t ih =>
    have ha : p a = true := hf a (List.mem_cons_self a t)
    have ht := ih (fun x hx => hf x (List.mem_cons_of_mem a hx))
    simp only [List.cons_append, List.takeWhile_cons, List.dropWhile_cons, ha, if_true, ht.1,
      ht.2, and_self]

theorem scanNotPipe_field (f : List Char) (hne : f ≠ []) (hpipe : '|' ∉ f) (rest : List Char) :
    scanNotPipe (f ++ '|' :: rest) = some (f, '|' :: rest) := by
  have h := takeWhile_dropWhile_stop (fun c => decide (c ≠ '|')) f '|' rest
    (by
      intro x hx
      have hxne : x ≠ '|' := fun h => hpipe (h ▸ hx)
      simp only [hxne, ne_eq, not_false_eq_true, decide_True])
    (by simp)
  unfold scanNotPipe
  simp only [ne_eq, decide_not] at h ⊢
  rw [h.1, h.2, if_neg hne]

/-! ## Reading a file line by line -/

theorem fgetsChars_line (l : List Char) (hnl : '\n' ∉ l) (rest : List Char) :
    ∀ k, l.length < k → fgetsChars k (l ++ '\n' :: rest) = (l ++ ['\n'], rest) := by
  induction l with
  | nil =>
    intro k hk
    cases k with
    | zero => omega
    | succ k => simp [fgetsChars]
  | cons a t ih =>
    intro k hk
    cases k with
    | zero => omega
    | succ k =>
      have ha : a ≠ '\n' := fun h => hnl (h ▸ List.mem_cons_self a t)
      have ht : '\n' ∉ t := fun h => hnl (List.mem_cons_of_mem a h)
      have hlen : t.length < k := by
        simp only [List.length_cons] at hk
        omega
      have hrec := ih ht k hlen
      rw [List.cons_append]
      simp only [fgetsChars, ha, if_false]
      rw [hrec]
      rfl

theorem fgets_line (n : Nat) (l : List Char) (hnl : '\n' ∉ l) (hlen : l.length + 2 ≤ n)
    (rest : List Char) :
    fgets n (l ++ '\n' :: rest) = some (l ++ ['\n'], rest) := by
  have h := fgetsChars_line l hnl rest (n - 1) (by omega)
  cases l with
  | nil =>
    simp only [List.nil_append] at h ⊢
    simp only [fgets, h]
  | cons a t =>
    simp only [List.cons_append] at h ⊢
    simp only [fgets, h]

theorem fileOfLines_cons (l : List Char) (ls : List (List Char)) :
    fileOfLines (l :: ls) = l ++ '\n' :: fileOfLines ls := rfl

theorem mem_pipe_line (l : List Char) : '|' ∈ l ++ ['\n'] ↔ '|' ∈ l := by
  simp


/-! ## Termination of the readers and the behaviour of `getString` -/

theorem fgetsChars_consumes (k : Nat) : ∀ s : List Char, s ≠ [] →
    (fgetsChars (k + 1) s).2.length < s.length := by
  induction k with
  | zero =>
    intro s hs
    cases s with
    | nil => exact absurd rfl hs
    | cons c t =>
      by_cases hc : c = '\n'
      · simp [fgetsChars, hc]
      · simp [fgetsChars, hc]
  | succ k ih =>
    intro s hs
    cases s with
    | nil => exact absurd rfl hs
    | cons c t =>
      by_cases hc : c = '\n'
      · simp [fgetsChars, hc]
      · cases t with
        | nil => simp [fgetsChars, hc]
        | cons d u =>
          have h := ih (d :: u) (by simp)
          simp only [fgetsChars, hc, if_false, List.length_cons] at h ⊢
          omega

theorem fgets_consumes (n : Nat) (hn : 2 ≤ n) (s b s1 : List Char)
    (h : fgets n s = some (b, s1)) : s1.length < s.length := by
  cases s with
  | nil => simp [fgets] at h
  | cons c t =>
    obtain ⟨k, rfl⟩ : ∃ k, n = k + 2 := ⟨n - 2, by omega⟩
    simp only [fgets, Option.some.injEq] at h
    have h2 := fgetsChars_consumes k (c :: t) (by simp)
    have h4 : k + 2 - 1 = k + 1 := by omega
    rw [h4] at h
    have h3 : (fgetsChars (k + 1) (c :: t)).2 = s1 := by
      rw [h]
    rw [h3] at h2
    exact h2

/-- With a buffer of at least two bytes the retry loop of `getString` ends
once it has as many iterations as there are characters left, plus one. -/
theorem getStringRetry_returns (maxLength : Nat) (hn : 2 ≤ maxLength) (fuel : Nat) :
    ∀ s : List Char, s.length < fuel → ∃ r, getStringRetry maxLength fuel s = some r := by
  induction fuel with
  | zero =>
    intro s h
    omega
  | succ fuel ih =>
    intro s h
    unfold getStringRetry
    split
    · exact ⟨_, rfl⟩
    · rename_i b s1 hget
      have hlt := fgets_consumes maxLength hn s b s1 hget
      split
      · exact ih s1 (by omega)
      · exact ⟨_, rfl⟩

/-- With a buffer of at least two bytes `getString` returns on every input. -/
theorem getString_returns (maxLength : Nat) (hn : 2 ≤ maxLength) (s : List Char) :
    ∃ r, getString maxLength s = some r := by
  unfold getString
  split
  · exact ⟨_, rfl⟩
  · split
    · exact getStringRetry_returns maxLength hn _ _ (Nat.lt_succ_self _)
    · exact ⟨_, rfl⟩

/-- Iterations beyond the number of characters left, plus one, do not change
what the loop of `getValidInteger` yields: `none` is a loop that never leaves. -/
theorem getValidIntegerLoop_fuel (rp : Bool) (fuel : Nat) :
    ∀ s : List Char, s.length < fuel →
      getValidIntegerLoop rp (fuel + 1) s = getValidIntegerLoop rp fuel s := by
  induction fuel with
  | zero =>
    intro s h
    omega
  | succ fuel ih =>
    intro s h
    cases s with
    | nil =>
      have hnone : ∀ k, getValidIntegerLoop rp k [] = none := by
        intro k
        induction k with
        | zero => rfl
        | succ k ihk => simp only [getValidIntegerLoop, fgets, ihk]
      rw [hnone, hnone]
    | cons c t =>
      have hstep : ∀ k, getValidIntegerLoop rp (k + 1) (c :: t) =
          (if stripNewline (fgetsChars 99 (c :: t)).1 = [] ∧ rp = false then
            getValidIntegerLoop rp k (fgetsChars 99 (c :: t)).2
          else if (strtol (stripNewline (fgetsChars 99 (c :: t)).1)).2 ≠ [] then
            getValidIntegerLoop rp k (fgetsChars 99 (c :: t)).2
          else if toInt32 (strtol (stripNewline (fgetsChars 99 (c :: t)).1)).1 ≤ 0 ∧ rp = true then
            getValidIntegerLoop rp k (fgetsChars 99 (c :: t)).2
          else some (toInt32 (strtol (stripNewline (fgetsChars 99 (c :: t)).1)).1,
            (fgetsChars 99 (c :: t)).2)) := by
        intro k
        simp only [getValidIntegerLoop, fgets]
      have hlt : (fgetsChars 99 (c :: t)).2.length < fuel := by
        have h1 : (fgetsChars 99 (c :: t)).2.length < (c :: t).length :=
          fgetsChars_consumes 98 (c :: t) (by simp)
        omega
      rw [hstep (fuel + 1), hstep fuel, ih _ hlt]

/-- The same for the loop of `getValidFloat`. -/
theorem getValidFloatLoop_fuel {F : Type} (E : FloatEnv F) (fuel : Nat) :
    ∀ s : List Char, s.length < fuel →
      getValidFloatLoop E (fuel + 1) s = getValidFloatLoop E fuel s := by
  induction fuel with
  | zero =>
    intro s h
    omega
  | succ fuel ih =>
    intro s h
    cases s with
    | nil =>
      have hnone : ∀ k, getValidFloatLoop E k [] = none := by
        intro k
        induction k with
        | zero => rfl
        | succ k ihk => simp only [getValidFloatLoop, fgets, ihk]
      rw [hnone, hnone]
    | cons c t =>
      have hstep : ∀ k, getValidFloatLoop E (k + 1) (c :: t) =
          (if (E.strtof (stripNewline (fgetsChars 99 (c :: t)).1)).2 ≠ [] then
            getValidFloatLoop E k (fgetsChars 99 (c :: t)).2
          else if E.leZero (E.strtof (stripNewline (fgetsChars 99 (c :: t)).1)).1 = true then
            getValidFloatLoop E k (fgetsChars 99 (c :: t)).2
          else some ((E.strtof (stripNewline (fgetsChars 99 (c :: t)).1)).1,
            (fgetsChars 99 (c :: t)).2)) := by
        intro k
        simp only [getValidFloatLoop, fgets]
      have hlt : (fgetsChars 99 (c :: t)).2.length < fuel := by
        have h1 : (fgetsChars 99 (c :: t)).2.length < (c :: t).length :=
          fgetsChars_consumes 98 (c :: t) (by simp)
        omega
      rw [hstep (fuel + 1), hstep fuel, ih _ hlt]

theorem stripNewline_line (l : List Char) (hnl : '\n' ∉ l) :
    stripNewline (l ++ ['\n']) = l ∧ stripNewline l = l := by
  have h := takeWhile_dropWhile_stop (fun c => decide (c ≠ '\n')) l '\n' []
    (by
      intro x hx
      have hxne : x ≠ '\n' := fun h => hnl (h ▸ hx)
      simp only [hxne, ne_eq, not_false_eq_true, decide_True])
    (by simp)
  constructor
  · exact h.1
  · unfold stripNewline
    rw [List.takeWhile_eq_self_iff]
    intro x hx
    have hxne : x ≠ '\n' := fun h => hnl (h ▸ hx)
    simp only [hxne, ne_eq, not_false_eq_true, decide_True]

/-- A non-empty line that fits the buffer with its newline is returned whole
and consumed whole. -/
theorem getString_short_line (maxLength : Nat) (l : List Char) (hne : l ≠ [])
    (hnl : '\n' ∉ l) (hlen : l.length + 2 ≤ maxLength) (rest : List Char) :
    getString maxLength (l ++ '\n' :: rest) = some (l, rest) := by
  unfold getString
  rw [fgets_line maxLength l hnl hlen rest]
  simp only [(stripNewline_line l hnl).1, if_neg hne]

theorem fgetsChars_long (k : Nat) : ∀ (l : List Char), '\n' ∉ l → k ≤ l.length →
    ∀ rest, fgetsChars k (l ++ rest) = (l.take k, l.drop k ++ rest) := by
  induction k with
  | zero =>
    intro l _ _ rest
    simp [fgetsChars]
  | succ k ih =>
    intro l hnl hlen rest
    cases l with
    | nil => simp at hlen
    | cons a t =>
      have ha : a ≠ '\n' := fun h => hnl (h ▸ List.mem_cons_self a t)
      have ht : '\n' ∉ t := fun h => hnl (List.mem_cons_of_mem a h)
      have hrec := ih t ht (by simpa using hlen) rest
      rw [List.cons_append]
      simp only [fgetsChars, ha, if_false]
      rw [hrec]
      rfl

/-- A line of `maxLength - 1` characters or more is cut after `maxLength - 1`
characters, and what was cut off, with the newline, stays in the input. -/
theorem getString_long_line (maxLength : Nat) (hn : 2 ≤ maxLength) (l : List Char)
    (hnl : '\n' ∉ l) (hlen : maxLength - 1 ≤ l.length) (rest : List Char) :
    getString maxLength (l ++ '\n' :: rest) =
      some (l.take (maxLength - 1), l.drop (maxLength - 1) ++ '\n' :: rest) := by
  have hchars := fgetsChars_long (maxLength - 1) l hnl hlen ('\n' :: rest)
  have htake : '\n' ∉ l.take (maxLength - 1) := fun h => hnl (List.mem_of_mem_take h)
  have hne : l.take (maxLength - 1) ≠ [] := by
    intro h
    have h1 := congrArg List.length h
    simp only [List.length_take, List.length_nil] at h1
    omega
  unfold getString
  cases l with
  | nil =>
    simp only [List.length_nil] at hlen
    omega
  | cons a t =>
    simp only [List.cons_append] at hchars ⊢
    simp only [fgets, hchars, (stripNewline_line _ htake).2, if_neg hne]


/-! ## The loop of `loadFromFile` -/

theorem fgetsChars_all (l : List Char) (hnl : '\n' ∉ l) :
    ∀ k, l.length ≤ k → fgetsChars k l = (l, []) := by
  induction l with
  | nil =>
    intro k _
    cases k <;> rfl
  | cons a t ih =>
    intro k hk
    cases k with
    | zero => simp at hk
    | succ k =>
      have ha : a ≠ '\n' := fun h => hnl (h ▸ List.mem_cons_self a t)
      have ht : '\n' ∉ t := fun h => hnl (List.mem_cons_of_mem a h)
      have hrec := ih ht k (by simpa using hk)
      simp only [fgetsChars, ha, if_false, hrec]

theorem loadLoop_nil {F : Type} (E : FloatEnv F) (junk : Nat → Item F) (fuel : Nat)
    (c : Cart F) : loadLoop E junk fuel [] c = some c := by
  cases fuel <;> rfl

theorem loadLoop_newline {F : Type} (E : FloatEnv F) (junk : Nat → Item F) (fuel : Nat)
    (rest : List Char) (c : Cart F) :
    loadLoop E junk (fuel + 1) ('\n' :: rest) c = loadLoop E junk fuel rest c := by
  have hget : fgets 256 ('\n' :: rest) = some (['\n'], rest) := by
    simp [fgets, fgetsChars]
  have hp : '|' ∉ ['\n'] := by decide
  simp only [loadLoop, hget, if_neg hp]

/-- What `fgets(line, 256, file)` delivers at the start of a line of at most
255 characters, and where the loop stands once that line is behind it. -/
theorem fgets_chunk {F : Type} (E : FloatEnv F) (junk : Nat → Item F) (l rest : List Char)
    (hnl : '\n' ∉ l) (hlen : l.length ≤ 255) (fuel : Nat)
    (hfuel : (l ++ '\n' :: rest).length < fuel + 1) :
    ∃ s1 fuel2, fgets 256 (l ++ '\n' :: rest) = some (chunkOf l, s1) ∧ rest.length < fuel2 ∧
      ∀ c, loadLoop E junk fuel s1 c = loadLoop E junk fuel2 rest c := by
  simp only [List.length_append, List.length_cons] at hfuel
  by_cases h : l.length ≤ 254
  · refine ⟨rest, fuel, ?_, by omega, fun _ => rfl⟩
    rw [fgets_line 256 l hnl (by omega) rest]
    simp only [chunkOf, if_pos h]
  · have h255 : l.length = 255 := by omega
    have hchars := fgetsChars_long 255 l hnl (by omega) ('\n' :: rest)
    have htake : l.take 255 = l := List.take_of_length_le (by omega)
    have hdrop : l.drop 255 = [] := List.drop_of_length_le (by omega)
    rw [htake, hdrop, List.nil_append] at hchars
    cases fuel with
    | zero => omega
    | succ fuel =>
      refine ⟨'\n' :: rest, fuel, ?_, by omega, fun c => loadLoop_newline E junk fuel rest c⟩
      cases l with
      | nil => simp at h255
      | cons a t =>
        simp only [List.cons_append] at hchars ⊢
        simp only [fgets, hchars, chunkOf, if_neg h]

theorem mem_pipe_chunkOf (l : List Char) : '|' ∈ chunkOf l ↔ '|' ∈ l := by
  unfold chunkOf
  split
  · simp
  · rfl

theorem loaded_nil {F : Type} (E : FloatEnv F) (junk : Nat → Item F) (c : Cart F) :
    LoadedFrom E junk c [] c := by
  refine ⟨by simp, fun k => ⟨fun h => by omega, fun _ => rfl⟩⟩

theorem loaded_cons_full {F : Type} (E : FloatEnv F) (junk : Nat → Item F) (c : Cart F)
    (ch : List Char) (recs : List (List Char)) (it : Item F)
    (hit : sscanfItem E (junk c.count) ch = some it) (hc : c.count < MAX_ITEMS)
    (hfull : c.count + 1 ≥ MAX_ITEMS) :
    LoadedFrom E junk c (ch :: recs) ⟨Function.update c.arr c.count it, c.count + 1⟩ := by
  have hmin : min (ch :: recs).length (MAX_ITEMS - c.count) = 1 := by
    simp only [List.length_cons]
    omega
  refine ⟨by rw [hmin], fun k => ⟨fun h => ?_, fun h => ?_⟩⟩
  · have hk : k = c.count := by
      simp only at h
      omega
    subst hk
    simp only [Nat.sub_self, List.getD_cons_zero, Function.update_same, hit]
  · have hk : k ≠ c.count := by
      simp only at h
      omega
    simp only [Function.update_noteq hk]

theorem loaded_cons_step {F : Type} (E : FloatEnv F) (junk : Nat → Item F) (c c1 : Cart F)
    (ch : List Char) (recs : List (List Char)) (it : Item F)
    (hit : sscanfItem E (junk c.count) ch = some it) (hc : c.count + 1 < MAX_ITEMS)
    (h : LoadedFrom E junk ⟨Function.update c.arr c.count it, c.count + 1⟩ recs c1) :
    LoadedFrom E junk c (ch :: recs) c1 := by
  obtain ⟨h1, h2⟩ := h
  simp only at h1 h2
  have hmin : min (ch :: recs).length (MAX_ITEMS - c.count) =
      1 + min recs.length (MAX_ITEMS - (c.count + 1)) := by
    simp only [List.length_cons]
    omega
  refine ⟨by rw [h1, hmin]; omega, fun k => ⟨fun hk => ?_, fun hk => ?_⟩⟩
  · by_cases hk0 : k = c.count
    · subst hk0
      have hout := (h2 c.count).2 (by omega)
      simp only [Function.update_same] at hout
      simp only [Nat.sub_self, List.getD_cons_zero, hout, hit]
    · have h3 : k - c.count = (k - (c.count + 1)) + 1 := by omega
      rw [h3, List.getD_cons_succ]
      exact (h2 k).1 (by omega)
  · have hk0 : k ≠ c.count := by omega
    have hout := (h2 k).2 (by omega)
    rw [hout, Function.update_noteq hk0]

theorem recordChunks_nil_last (last : List Char) :
    recordChunks [] last = if '|' ∈ last then [last] else [] := by
  by_cases h : '|' ∈ last <;> simp [recordChunks, h]

theorem recordChunks_cons (l : List Char) (ls : List (List Char)) (last : List Char) :
    recordChunks (l :: ls) last =
      if '|' ∈ l then chunkOf l :: recordChunks ls last else recordChunks ls last := by
  by_cases h : '|' ∈ l <;> simp [recordChunks, mem_pipe_chunkOf, h]

/-- One turn of the loop of `loadFromFile` on a piece that holds a pipe and
whose parse is defined. -/
theorem loadLoop_record {F : Type} (E : FloatEnv F) (junk : Nat → Item F) (fuel : Nat)
    (s line s1 : List Char) (c : Cart F) (it : Item F)
    (hget : fgets 256 s = some (line, s1)) (hp : '|' ∈ line)
    (hit : sscanfItem E (junk c.count) line = some it) :
    loadLoop E junk (fuel + 1) s c =
      if c.count + 1 ≥ MAX_ITEMS then some ⟨Function.update c.arr c.count it, c.count + 1⟩
      else loadLoop E junk fuel s1 ⟨Function.update c.arr c.count it, c.count + 1⟩ := by
  simp only [loadLoop, hget, if_pos hp, hit]

theorem loadLoop_skip {F : Type} (E : FloatEnv F) (junk : Nat → Item F) (fuel : Nat)
    (s line s1 : List Char) (c : Cart F)
    (hget : fgets 256 s = some (line, s1)) (hp : '|' ∉ line) :
    loadLoop E junk (fuel + 1) s c = loadLoop E junk fuel s1 c := by
  simp only [loadLoop, hget, if_neg hp]

/-- The loop of `loadFromFile` on a file of lines of at most 255 characters,
the last one with or without its newline: it stores, from slot `c.count` on,
the parse of each piece that holds a pipe, up to the capacity, provided these
parses are defined. -/
theorem loadLoop_lines {F : Type} (E : FloatEnv F) (junk : Nat → Item F)
    (lines : List (List Char)) (last : List Char) (hlast : '\n' ∉ last ∧ last.length ≤ 255) :
    ∀ (fuel : Nat) (c : Cart F), (∀ l, l ∈ lines → '\n' ∉ l ∧ l.length ≤ 255) →
      (fileOfLines lines ++ last).length < fuel → c.count < MAX_ITEMS →
      (∀ ch, ch ∈ (recordChunks lines last).take (MAX_ITEMS - c.count) →
        ∀ j, ∃ it, sscanfItem E j ch = some it) →
      ∃ c1, loadLoop E junk fuel (fileOfLines lines ++ last) c = some c1 ∧
        LoadedFrom E junk c (recordChunks lines last) c1 := by
  induction lines with
  | nil =>
    intro fuel c _ hfuel hc hdef
    simp only [fileOfLines, List.foldr_nil, List.nil_append] at hfuel ⊢
    rw [recordChunks_nil_last] at hdef ⊢
    cases fuel with
    | zero => omega
    | succ fuel =>
      cases hl : last with
      | nil =>
        have hp : '|' ∉ ([] : List Char) := by simp
        rw [if_neg hp]
        exact ⟨c, rfl, loaded_nil E junk c⟩
      | cons a t =>
        rw [← hl]
        have hget : fgets 256 last = some (last, []) := by
          have h := fgetsChars_all last hlast.1 255 hlast.2
          rw [hl] at h ⊢
          simp only [fgets, h]
        by_cases hp : '|' ∈ last
        · rw [if_pos hp] at hdef ⊢
          have hpos : 0 < MAX_ITEMS - c.count := by omega
          obtain ⟨it, hit⟩ := hdef last (by
            rw [List.take_cons hpos]
            exact List.mem_cons_self _ _) (junk c.count)
          rw [loadLoop_record E junk fuel last last [] c it hget hp hit]
          by_cases hfull : c.count + 1 ≥ MAX_ITEMS
          · rw [if_pos hfull]
            exact ⟨_, rfl, loaded_cons_full E junk c last [] it hit hc hfull⟩
          · rw [if_neg hfull, loadLoop_nil]
            exact ⟨_, rfl, loaded_cons_step E junk c _ last [] it hit (by omega)
              (loaded_nil E junk _)⟩
        · rw [if_neg hp]
          rw [loadLoop_skip E junk fuel last last [] c hget hp, loadLoop_nil]
          exact ⟨c, rfl, loaded_nil E junk c⟩
  | cons l ls ih =>
    intro fuel c hlines hfuel hc hdef
    have hl := hlines l (List.mem_cons_self l ls)
    have hls : ∀ l1, l1 ∈ ls → '\n' ∉ l1 ∧ l1.length ≤ 255 :=
      fun l1 h1 => hlines l1 (List.mem_cons_of_mem l h1)
    rw [fileOfLines_cons] at hfuel ⊢
    simp only [List.append_assoc, List.cons_append] at hfuel ⊢
    rw [recordChunks_cons] at hdef ⊢
    cases fuel with
    | zero => omega
    | succ fuel =>
      obtain ⟨s1, fuel2, hget, hfuel2, hcont⟩ :=
        fgets_chunk E junk l (fileOfLines ls ++ last) hl.1 hl.2 fuel hfuel
      by_cases hp : '|' ∈ l
      · rw [if_pos hp] at hdef ⊢
        have hpc : '|' ∈ chunkOf l := (mem_pipe_chunkOf l).mpr hp
        have hpos : 0 < MAX_ITEMS - c.count := by omega
        obtain ⟨it, hit⟩ := hdef (chunkOf l) (by
          rw [List.take_cons hpos]
          exact List.mem_cons_self _ _) (junk c.count)
        rw [loadLoop_record E junk fuel _ (chunkOf l) s1 c it hget hpc hit]
        by_cases hfull : c.count + 1 ≥ MAX_ITEMS
        · rw [if_pos hfull]
          exact ⟨_, rfl, loaded_cons_full E junk c _ _ it hit hc hfull⟩
        · rw [if_neg hfull, hcont]
          have hdef1 : ∀ ch, ch ∈ (recordChunks ls last).take (MAX_ITEMS - (c.count + 1)) →
              ∀ j, ∃ it, sscanfItem E j ch = some it := by
            intro ch hch
            apply hdef ch
            rw [List.take_cons hpos]
            exact List.mem_cons_of_mem _ hch
          obtain ⟨c1, hc1, hloaded⟩ := ih fuel2
            ⟨Function.update c.arr c.count it, c.count + 1⟩ hls hfuel2 (by
              simp only
              omega) hdef1
          exact ⟨c1, hc1, loaded_cons_step E junk c c1 _ _ it hit (by omega) hloaded⟩
      · rw [if_neg hp] at hdef ⊢
        have hpc : '|' ∉ chunkOf l := fun h => hp ((mem_pipe_chunkOf l).mp h)
        rw [loadLoop_skip E junk fuel _ (chunkOf l) s1 c hget hpc, hcont]
        exact ih fuel2 c hls hfuel2 hc hdef

/-- Loading a file of lines of at most 255 characters whose record parses
are defined. -/
theorem loadFromFile_lines {F : Type} (E : FloatEnv F) (junk arr : Nat → Item F)
    (lines : List (List Char)) (last : List Char)
    (hlines : ∀ l, l ∈ lines → '\n' ∉ l ∧ l.length ≤ 255)
    (hlast : '\n' ∉ last ∧ last.length ≤ 255)
    (hdef : ∀ ch, ch ∈ (recordChunks lines last).take MAX_ITEMS →
      ∀ j, ∃ it, sscanfItem E j ch = some it) :
    ∃ c, loadFromFile E junk (some (fileOfLines lines ++ last)) arr = some c ∧
      c.count = min (recordChunks lines last).length MAX_ITEMS ∧
      (∀ k, k < c.count →
        sscanfItem E (junk k) ((recordChunks lines last).getD k []) = some (c.arr k)) ∧
      (∀ k, c.count ≤ k → c.arr k = arr k) := by
  obtain ⟨c, hc, h1, h2⟩ := loadLoop_lines E junk lines last hlast
    ((fileOfLines lines ++ last).length + 1) ⟨arr, 0⟩ hlines
    (Nat.lt_succ_self _) (by simp only [MAX_ITEMS]; omega) (by simpa using hdef)
  simp only [Nat.zero_add, Nat.sub_zero, Nat.zero_le, true_and] at h1 h2
  refine ⟨c, by simp only [loadFromFile, hc], h1, ?_, ?_⟩
  · intro k hk
    exact (h2 k).1 hk
  · intro k hk
    exact (h2 k).2 (by omega)

theorem recordChunks_length (lines : List (List Char)) (last : List Char) :
    (recordChunks lines last).length =
      ((lines ++ [last]).filter (fun l => decide ('|' ∈ l))).length := by
  induction lines with
  | nil =>
    rw [recordChunks_nil_last]
    by_cases h : '|' ∈ last <;> simp [h]
  | cons l ls ih =>
    rw [recordChunks_cons]
    by_cases h : '|' ∈ l
    · simp only [h, if_true, List.length_cons, ih, List.cons_append, List.filter_cons,
        decide_True]
    · simp only [h, if_false, ih, List.cons_append, List.filter_cons, decide_False,
        Bool.false_eq_true]

/-- A record piece whose first two fields fit their buffers has a defined
parse, whatever the locals held before. -/
theorem sscanfItem_defined {F : Type} (E : FloatEnv F) (junk : Item F) (ch : List Char)
    (h : FieldsFit ch) : ∃ it, sscanfItem E junk ch = some it := by
  obtain ⟨h1, h2⟩ := h
  unfold sscanfItem scanNotPipe
  by_cases hc : ch.takeWhile (fun c => c ≠ '|') = []
  · simp only [hc, if_true]
    exact ⟨_, rfl⟩
  · have h2 := h2.resolve_left hc
    simp only [hc, if_false]
    rw [if_neg (by omega)]
    cases hr1 : ch.dropWhile (fun c => c ≠ '|') with
    | nil => exact ⟨_, rfl⟩
    | cons a r2 =>
      rw [hr1] at h2
      simp only [List.drop_succ_cons, List.drop_zero] at h2
      by_cases ha : a = '|'
      · subst ha
        simp only [scanPipe]
        by_cases hn : r2.takeWhile (fun c => c ≠ '|') = []
        · simp only [hn, if_true]
          exact ⟨_, rfl⟩
        · simp only [hn, if_false]
          rw [if_neg (by omega)]
          repeat' split
          all_goals exact ⟨_, rfl⟩
      · have hp : scanPipe (a :: r2) = none := by
          unfold scanPipe
          split
          · rename_i heq
            simp only [List.cons.injEq] at heq
            exact absurd heq.1 ha
          · rfl
        rw [hp]
        exact ⟨_, rfl⟩

theorem loadLoop_count_le {F : Type} (E : FloatEnv F) (junk : Nat → Item F) (fuel : Nat) :
    ∀ (s : List Char) (c c1 : Cart F), c.count < MAX_ITEMS →
      loadLoop E junk fuel s c = some c1 → c1.count ≤ MAX_ITEMS := by
  induction fuel with
  | zero =>
    intro s c c1 hc h
    simp only [loadLoop, Option.some.injEq] at h
    rw [← h]
    exact Nat.le_of_lt hc
  | succ fuel ih =>
    intro s c c1 hc h
    unfold loadLoop at h
    split at h
    · simp only [Option.some.injEq] at h
      rw [← h]
      exact Nat.le_of_lt hc
    · split at h
      · split at h
        · exact absurd h (by simp)
        · split at h
          · simp only [Option.some.injEq] at h
            rw [← h]
            simp only
            omega
          · exact ih _ _ c1 (by simp only; omega) h
      · exact ih _ _ c1 hc h

/-! ## What `saveToFile` writes -/

theorem fileOfLines_append (xs ys : List (List Char)) :
    fileOfLines (xs ++ ys) = fileOfLines xs ++ fileOfLines ys := by
  induction xs with
  | nil => rfl
  | cons l ls ih =>
    simp only [List.cons_append, fileOfLines_cons, ih, List.append_assoc]

theorem formatItem_eq {F : Type} (E : FloatEnv F) (it : Item F) :
    formatItem E it = recordLine E it ++ ['\n'] := by
  simp only [formatItem, recordLine, List.append_assoc, List.cons_append]

theorem saveToFile_eq_lines {F : Type} (E : FloatEnv F) (arr : Nat → Item F) (count : Nat) :
    saveToFile E arr count =
      fileOfLines ((List.range count).map (fun i => recordLine E (arr i))) := by
  unfold saveToFile
  induction count with
  | zero => rfl
  | succ n ih =>
    rw [List.range_succ, List.foldl_append, ih, List.map_append, fileOfLines_append]
    simp only [List.foldl_cons, List.foldl_nil, List.map_cons, List.map_nil, fileOfLines_cons,
      formatItem_eq]
    rfl

theorem formatInt_chars (q : Int) (h1 : -2147483648 ≤ q) (h2 : q ≤ 2147483647) :
    (∀ c, c ∈ formatInt q → c = '-' ∨ c.isDigit = true) ∧ (formatInt q).length ≤ 11 := by
  obtain ⟨_, hds, _, _⟩ := natDigits_spec q.natAbs
  have hlen := natDigits_length_le q.natAbs 10 (by norm_num) (by omega)
  rw [formatInt_eq]
  constructor
  · intro c hc
    rw [List.mem_append] at hc
    rcases hc with hc | hc
    · left
      by_cases hq : q < 0
      · simpa [hq] using hc
      · simp [hq] at hc
    · exact Or.inr (hds c hc)
  · rw [List.length_append]
    have hs : (if decide (q < 0) then ['-'] else []).length ≤ 1 := by
      by_cases hq : q < 0 <;> simp [hq]
    omega

/-- A storable item is written as one line that fits the line buffer of
`loadFromFile` and holds a pipe. -/
theorem recordLine_fits {F : Type} (E : FloatEnv F) (it : Item F) (h : it.Storable E) :
    '\n' ∉ recordLine E it ∧ (recordLine E it).length ≤ 254 ∧ '|' ∈ recordLine E it := by
  obtain ⟨hcode, hname, hq, hp, hs, hlen⟩ := h
  obtain ⟨hqc, _⟩ := formatInt_chars it.quantity hq.1 hq.2
  have hdig : ¬ ('\n'.isDigit = true) := by decide
  refine ⟨?_, hlen, ?_⟩
  · intro hmem
    simp only [recordLine, List.mem_append, List.mem_cons] at hmem
    rcases hmem with (((hm | hm | hm) | hm | hm) | hm | hm) | hm | hm
    · exact hcode.2.2.1 hm
    · exact absurd hm (by decide)
    · exact hname.2.2.1 hm
    · exact absurd hm (by decide)
    · rcases hqc _ hm with h1 | h1
      · exact absurd h1 (by decide)
      · exact hdig h1
    · exact absurd hm (by decide)
    · exact hp.2.1 hm
    · exact absurd hm (by decide)
    · exact hs.2.1 hm
  · simp only [recordLine, List.mem_append, List.mem_cons]
    left
    left
    left
    right
    left
    trivial

theorem getD_map_range (f : Nat → List Char) (count k : Nat) (hk : k < count) :
    ((List.range count).map f).getD k [] = f k := by
  rw [List.getD_eq_getElem?_getD, List.getElem?_map, List.getElem?_range hk]
  rfl

/-- The parse of `loadFromFile` returns the item that `saveToFile` wrote. -/
theorem sscanfItem_formatItem {F : Type} (E : FloatEnv F) (junk it : Item F)
    (h : it.Storable E) : sscanfItem E junk (formatItem E it) = some it := by
  obtain ⟨hcode, hname, hq, hp, hs, _⟩ := h
  have hbar : '|'.isDigit = false := by decide
  have hcl : ¬ MAX_CODE_LEN ≤ it.code.length := not_le.mpr hcode.2.2.2
  have hnl : ¬ MAX_NAME_LEN ≤ it.name.length := not_le.mpr hname.2.2.2
  unfold sscanfItem formatItem
  simp only [List.append_assoc, List.cons_append]
  rw [scanNotPipe_field it.code hcode.1 hcode.2.1]
  simp only [scanPipe, if_neg hcl]
  rw [scanNotPipe_field it.name hname.1 hname.2.1]
  simp only [scanPipe, if_neg hnl]
  rw [scanInt_formatInt it.quantity hq.1 hq.2 '|' hbar]
  simp only [scanPipe]
  rw [hp.2.2 '|' _ (Or.inl rfl)]
  simp only [scanPipe]
  rw [hs.2.2 '\n' [] (Or.inr rfl)]

/-- Iterations beyond the number of characters left, plus one, do not change
what the loop of `loadFromFile` yields: the loop ends at the end of the file
or at capacity, never for lack of iterations. -/
theorem loadLoop_fuel {F : Type} (E : FloatEnv F) (junk : Nat → Item F) (fuel : Nat) :
    ∀ (s : List Char) (c : Cart F), s.length < fuel →
      loadLoop E junk (fuel + 1) s c = loadLoop E junk fuel s c := by
  induction fuel with
  | zero =>
    intro s c h
    omega
  | succ fuel ih =>
    intro s c h
    cases s with
    | nil => simp only [loadLoop, fgets]
    | cons a t =>
      have hstep : ∀ k (c : Cart F), loadLoop E junk (k + 1) (a :: t) c =
          (if '|' ∈ (fgetsChars 255 (a :: t)).1 then
            match sscanfItem E (junk c.count) (fgetsChars 255 (a :: t)).1 with
            | none => none
            | some it =>
              if c.count + 1 ≥ MAX_ITEMS then
                some ⟨Function.update c.arr c.count it, c.count + 1⟩
              else
                loadLoop E junk k (fgetsChars 255 (a :: t)).2
                  ⟨Function.update c.arr c.count it, c.count + 1⟩
          else loadLoop E junk k (fgetsChars 255 (a :: t)).2 c) := by
        intro k c
        simp only [loadLoop, fgets]
      have hlt : (fgetsChars 255 (a :: t)).2.length < fuel := by
        have h1 : (fgetsChars 255 (a :: t)).2.length < (a :: t).length :=
          fgetsChars_consumes 254 (a :: t) (by simp)
        omega
      rw [hstep (fuel + 1), hstep fuel, ih _ _ hlt]
      split
      · split
        · rfl
        · rw [ih _ _ hlt]
      · rfl

/-! ## The `float` conversions of the sample environment -/

theorem isDigit_eq_digitChar (c : Char) (h : c.isDigit = true) :
    ∃ d, d < 10 ∧ c = digitChar d := by
  have h1 : 48 ≤ c.toNat ∧ c.toNat ≤ 57 := by
    simp only [Char.isDigit, Bool.and_eq_true, decide_eq_true_eq] at h
    exact ⟨h.1, h.2⟩
  refine ⟨c.toNat - 48, by omega, ?_⟩
  have h3 : 48 + (c.toNat - 48) = c.toNat := by omega
  unfold digitChar
  rw [h3]
  exact (Char.ofNat_toNat c).symm

/-- The `%f` of `sscanf` on a text that starts with a digit, not with `0x`:
the characters it takes are those the collecting loop takes. -/
theorem lexFloat_digit (d : Char) (hd : d.isDigit = true) (s : List Char)
    (hx : ∀ x w, s = x :: w → x.toLower ≠ 'x') :
    lexFloat (d :: s) =
      if (lexLoop false false false false [] (d :: s)).1 = [] then none
      else some (lexLoop false false false false [] (d :: s)) := by
  obtain ⟨k, hk, rfl⟩ := isDigit_eq_digitChar d hd
  interval_cases k
  · cases s with
    | nil => rfl
    | cons x w =>
      have hx1 := hx x w rfl
      simp [lexFloat, digitChar, isspace, hx1]
      rfl
  all_goals simp [lexFloat, digitChar, isspace]

/-- The subject sequence of `strtof` on a text that starts with a digit, not
with `0x`: a decimal constant. -/
theorem convertUnsigned_digit (d : Char) (hd : d.isDigit = true) (s : List Char)
    (hx : ∀ x w, s = x :: w → x.toLower ≠ 'x') :
    convertUnsigned (d :: s) =
      if (scanMantissa (d :: s)).1 then
        some (roundBinary32 false ((scanMantissa (d :: s)).2.1 *
          powInt 10 (scanExponent 'e' (scanMantissa (d :: s)).2.2).1),
          (scanExponent 'e' (scanMantissa (d :: s)).2.2).2)
      else none := by
  obtain ⟨k, hk, rfl⟩ := isDigit_eq_digitChar d hd
  interval_cases k
  · cases s with
    | nil => simp [convertUnsigned, digitChar, startsWithCI, convertHex]
    | cons x w =>
      have hx1 := hx x w rfl
      simp [convertUnsigned, digitChar, startsWithCI, convertHex, hx1]
  all_goals simp [convertUnsigned, digitChar, startsWithCI, convertHex]

theorem lexLoop_digit (hexa gd ge gdot : Bool) (buf : List Char) (c : Char)
    (hc : c.isDigit = true) (s : List Char) :
    lexLoop hexa gd ge gdot buf (c :: s) = lexLoop hexa true ge gdot (c :: buf) s := by
  simp only [lexLoop, hc, if_true]

/-- The collecting loop of `%f` on what `%.2f` prints for a number, followed
by a pipe or a newline: it takes the digits, the point and the two decimals. -/
theorem lexLoop_fixed2 (ds : List Char) (hds : ∀ c, c ∈ ds → c.isDigit = true)
    (c1 c2 : Char) (h1 : c1.isDigit = true) (h2 : c2.isDigit = true)
    (sep : Char) (hsep : sep = '|' ∨ sep = '\n') (rest : List Char) :
    ∀ (gd : Bool) (buf : List Char),
      lexLoop false gd false false buf (ds ++ '.' :: c1 :: c2 :: sep :: rest) =
        (buf.reverse ++ ds ++ ['.', c1, c2], sep :: rest) := by
  induction ds with
  | nil =>
    intro gd buf
    have hdot : lexLoop false gd false false buf ('.' :: c1 :: c2 :: sep :: rest) =
        lexLoop false gd false true ('.' :: buf) (c1 :: c2 :: sep :: rest) := by
      simp [lexLoop]
    have hend : lexLoop false true false true (c2 :: c1 :: '.' :: buf) (sep :: rest) =
        ((c2 :: c1 :: '.' :: buf).reverse, sep :: rest) := by
      rcases hsep with h | h <;> subst h <;> simp [lexLoop]
    rw [List.nil_append, hdot, lexLoop_digit _ _ _ _ _ c1 h1, lexLoop_digit _ _ _ _ _ c2 h2, hend]
    simp
  | cons d t ih =>
    intro gd buf
    have hd : d.isDigit = true := hds d (List.mem_cons_self d t)
    rw [List.cons_append, lexLoop_digit _ _ _ _ _ d hd,
      ih (fun c hc => hds c (List.mem_cons_of_mem d hc)) true (d :: buf)]
    simp

theorem digitChar_not_x : ∀ d, d < 10 → (digitChar d).toLower ≠ 'x' := by
  decide

theorem scanExponent_nil (e : Char) : scanExponent e [] = (0, []) := rfl

theorem powInt_zero (b : Nat) : powInt b 0 = 1 := by
  simp [powInt]

/-- The decimal mantissa of `ddd.dd` at the end of the text or in front of a
character that is no digit. -/
theorem scanMantissa_fixed2 (ds : List Char) (hne : ds ≠ [])
    (hds : ∀ c, c ∈ ds → c.isDigit = true) (d1 d2 : Nat) (hd1 : d1 < 10) (hd2 : d2 < 10)
    (tl : List Char) (htl : ∀ c t, tl = c :: t → c.isDigit = false) :
    scanMantissa (ds ++ '.' :: digitChar d1 :: digitChar d2 :: tl) =
      (true, ((ds.foldl (fun v c => v * 10 + digitVal c) 0 : Nat) : ℚ) +
        ((d1 * 10 + d2 : Nat) : ℚ) / 100, tl) := by
  have hip := scanDigits_run ds hds '.' (by decide) (digitChar d1 :: digitChar d2 :: tl)
  have h1 := digitChar_facts d1 hd1
  have h2 := digitChar_facts d2 hd2
  have hfp : scanDigits 0 (digitChar d1 :: digitChar d2 :: tl) = (d1 * 10 + d2, tl) := by
    have hv1 := h1.2.1
    have hv2 := h2.2.1
    have hi1 := h1.1
    have hi2 := h2.1
    simp only [scanDigits, hi1, hi2, if_true, hv1, hv2, zero_mul, zero_add]
    exact scanDigits_stop _ tl htl
  have hlen : 0 < ds.length := List.length_pos.mpr hne
  unfold scanMantissa
  simp only [hip, hfp, List.length_cons, List.length_append]
  have hseen : (tl.length + 1 + 1 + 1 < ds.length + (tl.length + 1 + 1 + 1)) := by
    omega
  have hfrac : tl.length + 1 + 1 - tl.length = 2 := by omega
  simp only [hseen, decide_True, Bool.true_or, if_true, hfrac]
  norm_num

/-- The `%f` of `sscanf` on `ddd.dd` followed by a pipe or a newline: the
decimal value, rounded to the nearest `float`. -/
theorem scanFloat_fixed2 (ds : List Char) (hne : ds ≠ [])
    (hds : ∀ c, c ∈ ds → c.isDigit = true) (d1 d2 : Nat) (hd1 : d1 < 10) (hd2 : d2 < 10)
    (sep : Char) (hsep : sep = '|' ∨ sep = '\n') (rest : List Char) :
    scanFloatBinary32 (ds ++ '.' :: digitChar d1 :: digitChar d2 :: sep :: rest) =
      some (roundBinary32 false (((ds.foldl (fun v c => v * 10 + digitVal c) 0 : Nat) : ℚ) +
        ((d1 * 10 + d2 : Nat) : ℚ) / 100), sep :: rest) := by
  have h1 := digitChar_facts d1 hd1
  have h2 := digitChar_facts d2 hd2
  have hlex := lexLoop_fixed2 ds hds _ _ h1.1 h2.1 sep hsep rest false []
  have hm := scanMantissa_fixed2 ds hne hds d1 d2 hd1 hd2 [] (fun c t h => by simp at h)
  simp only [List.reverse_nil, List.nil_append] at hlex
  cases ds with
  | nil => exact absurd rfl hne
  | cons d u =>
    have hd : d.isDigit = true := hds d (List.mem_cons_self d u)
    have hf := isDigit_facts d hd
    have hx : ∀ (tl : List Char) x w, u ++ '.' :: tl = x :: w → x.toLower ≠ 'x' := by
      intro tl x w h
      cases u with
      | nil =>
        simp only [List.nil_append, List.cons.injEq] at h
        rw [← h.1]
        decide
      | cons e v =>
        simp only [List.cons_append, List.cons.injEq] at h
        have he : e.isDigit = true :=
          hds e (List.mem_cons_of_mem d (List.mem_cons_self e v))
        obtain ⟨k, hk, hek⟩ := isDigit_eq_digitChar e he
        rw [← h.1, hek]
        exact digitChar_not_x k hk
    simp only [List.cons_append] at hlex hm ⊢
    unfold scanFloatBinary32
    rw [lexFloat_digit d hd _ (hx _), hlex]
    simp only [List.cons_append, reduceCtorEq, if_false]
    rw [scanSign_other d _ hf.2.2.1 hf.2.2.2.1]
    simp only
    rw [convertUnsigned_digit d hd _ (hx _), hm]
    simp only [if_true, scanExponent_nil, powInt_zero, mul_one, Bool.false_eq_true, if_false]

theorem natDigits_fold (n : Nat) :
    (natDigits n).foldl (fun v c => v * 10 + digitVal c) 0 = n := by
  obtain ⟨_, hds, hval, _⟩ := natDigits_spec n
  have h3 := hval 0 ['.']
  rw [scanDigits_run _ hds '.' (by decide) [], scanDigits_stop] at h3
  · simpa using congrArg Prod.fst h3
  · intro c t h
    simp only [List.cons.injEq] at h
    rw [← h.1]
    decide

theorem printFixed2_fin (m : ℚ) :
    printFixed2Binary32 (Binary32.fin false m) =
      natDigits (roundHalfEven (m * 100) / 100) ++
        '.' :: digitChar (roundHalfEven (m * 100) / 10 % 10) ::
          digitChar (roundHalfEven (m * 100) % 10) :: [] := by
  simp [printFixed2Binary32]

/-- The `%f` of `sscanf` reads what `%.2f` printed for a non-negative number
as the `float` nearest to the printed decimal. -/
theorem scanFloat_printFixed2 (m : ℚ) (sep : Char) (hsep : sep = '|' ∨ sep = '\n')
    (rest : List Char) :
    scanFloatBinary32 (printFixed2Binary32 (Binary32.fin false m) ++ sep :: rest) =
      some (roundBinary32 false ((roundHalfEven (m * 100) : ℚ) / 100), sep :: rest) := by
  obtain ⟨hne, hds, _, _⟩ := natDigits_spec (roundHalfEven (m * 100) / 100)
  have h := scanFloat_fixed2 (natDigits (roundHalfEven (m * 100) / 100)) hne hds
    (roundHalfEven (m * 100) / 10 % 10) (roundHalfEven (m * 100) % 10)
    (Nat.mod_lt _ (by norm_num)) (Nat.mod_lt _ (by norm_num)) sep hsep rest
  rw [printFixed2_fin]
  simp only [List.append_assoc, List.cons_append, List.nil_append]
  rw [h, natDigits_fold]
  have hsplit : roundHalfEven (m * 100) / 100 * 100 +
      (roundHalfEven (m * 100) / 10 % 10 * 10 + roundHalfEven (m * 100) % 10) =
        roundHalfEven (m * 100) := by
    omega
  have hq : ((roundHalfEven (m * 100) / 100 : Nat) : ℚ) +
      ((roundHalfEven (m * 100) / 10 % 10 * 10 + roundHalfEven (m * 100) % 10 : Nat) : ℚ) / 100
      = ((roundHalfEven (m * 100) : Nat) : ℚ) / 100 := by
    have h1 := congrArg (fun n : Nat => (n : ℚ)) hsplit
    simp only [Nat.cast_add, Nat.cast_mul, Nat.cast_ofNat] at h1
    rw [← h1]
    push_cast
    ring
  rw [hq]

theorem printFixed2_chars (m : ℚ) :
    ∀ c, c ∈ printFixed2Binary32 (Binary32.fin false m) → c = '.' ∨ c.isDigit = true := by
  obtain ⟨_, hds, _, _⟩ := natDigits_spec (roundHalfEven (m * 100) / 100)
  have hd1 := (digitChar_facts (roundHalfEven (m * 100) / 10 % 10)
    (Nat.mod_lt _ (by norm_num))).1
  have hd2 := (digitChar_facts (roundHalfEven (m * 100) % 10) (Nat.mod_lt _ (by norm_num))).1
  intro c hc
  rw [printFixed2_fin] at hc
  simp only [List.mem_append, List.mem_cons, List.not_mem_nil, or_false] at hc
  rcases hc with hc | hc | hc | hc
  · exact Or.inr (hds c hc)
  · exact Or.inl hc
  · rw [hc]
    exact Or.inr hd1
  · rw [hc]
    exact Or.inr hd2

/-- A non-negative `float` reads back when it is the `float` nearest to the
two-decimal number that `%.2f` prints for it. -/
theorem binary32_readsBack (m : ℚ)
    (h : roundBinary32 false ((roundHalfEven (m * 100) : ℚ) / 100) = Binary32.fin false m) :
    ReadsBack binary32 (Binary32.fin false m) := by
  refine ⟨?_, ?_, ?_⟩
  · simp [binary32, eqBinary32]
  · intro hmem
    rcases printFixed2_chars m _ hmem with h1 | h1
    · exact absurd h1 (by decide)
    · exact absurd h1 (by decide)
  · intro sep rest hsep
    show scanFloatBinary32 (printFixed2Binary32 (Binary32.fin false m) ++ sep :: rest) = _
    rw [scanFloat_printFixed2 m sep hsep rest, h]

/-- A non-negative `float` that reads back is the `float` nearest to the
two-decimal number that `%.2f` prints for it. -/
theorem binary32_readsBack_nearest (m : ℚ) (h : ReadsBack binary32 (Binary32.fin false m)) :
    roundBinary32 false ((roundHalfEven (m * 100) : ℚ) / 100) = Binary32.fin false m := by
  have h1 := h.2.2 '|' [] (Or.inl rfl)
  have h2 : scanFloatBinary32 (printFixed2Binary32 (Binary32.fin false m) ++ ['|']) =
      some (Binary32.fin false m, ['|']) := h1
  rw [scanFloat_printFixed2 m '|' (Or.inl rfl) []] at h2
  simp only [Option.some.injEq, Prod.mk.injEq, and_true] at h2
  exact h2

theorem roundHalfEven_le (y : ℚ) (b : Nat) (hb : 0 < b) (hy : y < (b : ℚ)) :
    roundHalfEven y ≤ b := by
  have hfl : ⌊y⌋ < (b : Int) := by
    rw [Int.floor_lt]
    exact_mod_cast hy
  have hnat : ⌊y⌋.toNat < b := by omega
  unfold roundHalfEven
  simp only
  split
  · omega
  · split
    · omega
    · split <;> omega

theorem roundBinary32_fin_lt (neg a : Bool) (q m : ℚ)
    (h : roundBinary32 neg q = Binary32.fin a m) : m < ((2 ^ 128 : Nat) : ℚ) := by
  unfold roundBinary32 at h
  split at h
  · simp only [Binary32.fin.injEq] at h
    rw [← h.2]
    norm_num
  · simp only at h
    split at h
    · exact absurd h (by simp)
    · rename_i hlt
      simp only [Binary32.fin.injEq] at h
      rw [← h.2]
      have hp : powInt 2 128 = ((2 ^ 128 : Nat) : ℚ) := by
        simp [powInt]
      rw [hp] at hlt
      exact lt_of_not_le hlt

/-- What `%.2f` prints for a `float` that reads back has at most 42
characters. -/
theorem printFixed2_length (m : ℚ)
    (h : roundBinary32 false ((roundHalfEven (m * 100) : ℚ) / 100) = Binary32.fin false m) :
    (printFixed2Binary32 (Binary32.fin false m)).length ≤ 42 := by
  have hm := roundBinary32_fin_lt false false _ m h
  have hy : m * 100 < ((2 ^ 128 * 100 : Nat) : ℚ) := by
    push_cast at hm ⊢
    linarith
  have hk := roundHalfEven_le (m * 100) (2 ^ 128 * 100) (by norm_num) hy
  have hbound : roundHalfEven (m * 100) / 100 < 10 ^ 39 := by
    have h1 : roundHalfEven (m * 100) / 100 ≤ 2 ^ 128 := by
      apply Nat.div_le_of_le_mul
      rw [Nat.mul_comm]
      exact hk
    have h2 : (2 : Nat) ^ 128 < 10 ^ 39 := by norm_num
    omega
  have hlen := natDigits_length_le _ 39 (by norm_num) hbound
  rw [printFixed2_fin]
  simp only [List.length_append, List.length_cons, List.length_nil]
  omega

/-- In the sample environment an item is storable when its strings fit, its
quantity is an `int`, and its two amounts are non-negative `float`s nearest to
the two-decimal numbers printed for them. -/
theorem binary32_storable (code name : List Char) (q : Int) (p t : ℚ)
    (hcode : FieldOk MAX_CODE_LEN code) (hname : FieldOk MAX_NAME_LEN name)
    (hq : -2147483648 ≤ q ∧ q ≤ 2147483647)
    (hp : roundBinary32 false ((roundHalfEven (p * 100) : ℚ) / 100) = Binary32.fin false p)
    (ht : roundBinary32 false ((roundHalfEven (t * 100) : ℚ) / 100) = Binary32.fin false t) :
    (Item.mk code name q (Binary32.fin false p) (Binary32.fin false t)).Storable binary32 := by
  refine ⟨hcode, hname, hq, binary32_readsBack p hp, binary32_readsBack t ht, ?_⟩
  have h1 := printFixed2_length p hp
  have h2 := printFixed2_length t ht
  have h3 := (formatInt_chars q hq.1 hq.2).2
  have hcl := hcode.2.2.2
  have hnl := hname.2.2.2
  simp only [MAX_CODE_LEN, MAX_NAME_LEN] at hcl hnl
  show (code ++ '|' :: name ++ '|' :: formatInt q ++
    '|' :: printFixed2Binary32 (Binary32.fin false p) ++
      '|' :: printFixed2Binary32 (Binary32.fin false t)).length ≤ 254
  simp only [List.length_append, List.length_cons]
  omega

/-! ## Saving and loading -/

theorem recordChunks_records (lines : List (List Char))
    (h : ∀ l, l ∈ lines → '|' ∈ l ∧ l.length ≤ 254) :
    recordChunks lines [] = lines.map (fun l => l ++ ['\n']) := by
  induction lines with
  | nil =>
    rw [recordChunks_nil_last]
    simp
  | cons l ls ih =>
    have hl := h l (List.mem_cons_self l ls)
    rw [recordChunks_cons, if_pos hl.1, ih (fun l1 h1 => h l1 (List.mem_cons_of_mem l h1))]
    simp only [chunkOf, if_pos hl.2, List.map_cons]

/-- C4 (amended). For a cart of at most 200 items whose codes and names are
non-empty, free of pipe and newline and fit their buffers, whose quantities
are `int`s, whose unit prices and subtotals read back (each is a number that
`%f` reads again from what `%.2f` prints for it) and whose lines fit the line
buffer, loading the file that `saveToFile` wrote is defined and gives the same
count and, slot by slot, the same items.  This holds in every float
environment. -/
theorem saveToFile_loadFromFile_round_trip {F : Type} (E : FloatEnv F)
    (junk arr0 arr : Nat → Item F) (count : Nat) (hcount : count ≤ 200)
    (hitems : ∀ i, i < count → (arr i).Storable E) :
    ∃ c, loadFromFile E junk (some (saveToFile E arr count)) arr0 = some c ∧
      c.count = count ∧ ∀ i, i < count → c.arr i = arr i := by
  have hfits : ∀ l, l ∈ (List.range count).map (fun i => recordLine E (arr i)) →
      ('\n' ∉ l ∧ l.length ≤ 254) ∧ '|' ∈ l := by
    intro l hl
    rw [List.mem_map] at hl
    obtain ⟨i, hi, rfl⟩ := hl
    have h := recordLine_fits E (arr i) (hitems i (List.mem_range.mp hi))
    exact ⟨⟨h.1, h.2.1⟩, h.2.2⟩
  have hrec : recordChunks ((List.range count).map (fun i => recordLine E (arr i))) [] =
      (List.range count).map (fun i => formatItem E (arr i)) := by
    rw [recordChunks_records _ (fun l hl => ⟨(hfits l hl).2, (hfits l hl).1.2⟩), List.map_map]
    apply List.map_congr_left
    intro i _
    simp only [Function.comp, formatItem_eq]
  have hdef : ∀ ch, ch ∈ (recordChunks ((List.range count).map
      (fun i => recordLine E (arr i))) []).take MAX_ITEMS →
      ∀ j, ∃ it, sscanfItem E j ch = some it := by
    intro ch hch j
    have hmem := List.mem_of_mem_take hch
    rw [hrec, List.mem_map] at hmem
    obtain ⟨i, hi, rfl⟩ := hmem
    exact ⟨arr i, sscanfItem_formatItem E j (arr i) (hitems i (List.mem_range.mp hi))⟩
  obtain ⟨c, hc, h1, h2, _⟩ := loadFromFile_lines E junk arr0 _ []
    (fun l hl => ⟨(hfits l hl).1.1, by have := (hfits l hl).1.2; omega⟩)
    ⟨by simp, by simp⟩ hdef
  rw [hrec] at h1 h2
  simp only [List.length_map, List.length_range, MAX_ITEMS] at h1
  have hmin : min count 200 = count := by omega
  rw [hmin] at h1
  rw [List.append_nil] at hc
  refine ⟨c, by rw [saveToFile_eq_lines, hc], h1, ?_⟩
  intro i hi
  have h3 := h2 i (by omega)
  rw [getD_map_range _ count i hi,
    sscanfItem_formatItem E (junk i) (arr i) (hitems i hi)] at h3
  exact (Option.some.inj h3).symm

theorem priceCart_storable :
    ∀ i, i < priceCart.count → (priceCart.arr i).Storable binary32 := by
  intro i hi
  have h2 : i < 2 := hi
  interval_cases i
  · exact binary32_storable _ _ _ _ _ (by decide) (by decide) (by decide) (by decide!)
      (by decide!)
  · exact binary32_storable _ _ _ _ _ (by decide) (by decide) (by decide) (by decide!)
      (by decide!)

/-- The `float`s nearest to 0.01 and to 19.99 read back; the `float` nearest
to 0.001 and the product of 5 and the `float` nearest to 0.01 do not: the
first is printed `0.00`, the second is printed `0.05` and is not the `float`
nearest to 0.05. -/
theorem readsBack_examples :
    ReadsBack binary32 (Binary32.fin false (5368709 / 536870912)) ∧
    ReadsBack binary32 (Binary32.fin false (10480517 / 524288)) ∧
    ¬ ReadsBack binary32 (Binary32.fin false (8589935 / 8589934592)) ∧
    mulIntBinary32 5 (Binary32.fin false (5368709 / 536870912)) =
      Binary32.fin false (3355443 / 67108864) ∧
    printFixed2Binary32 (Binary32.fin false (3355443 / 67108864)) = "0.05".toList ∧
    ¬ ReadsBack binary32 (Binary32.fin false (3355443 / 67108864)) := by
  refine ⟨binary32_readsBack _ (by decide!), binary32_readsBack _ (by decide!), ?_, by decide!,
    by decide!, ?_⟩
  · intro h
    exact absurd (binary32_readsBack_nearest _ h) (by decide!)
  · intro h
    exact absurd (binary32_readsBack_nearest _ h) (by decide!)

theorem saveToFile_loadFromFile_round_trip_witness :
    priceCart.count ≤ 200 ∧ (∀ i, i < priceCart.count → (priceCart.arr i).Storable binary32) ∧
    saveToFile binary32 priceCart.arr priceCart.count =
      "A1|Pen|2|19.99|39.98\nB2|Ink|1|0.01|0.01\n".toList ∧
    ∃ c, loadFromFile binary32 (fun _ => default)
        (some (saveToFile binary32 priceCart.arr priceCart.count)) (fun _ => default) = some c ∧
      c.count = priceCart.count ∧ ∀ i, i < priceCart.count → c.arr i = priceCart.arr i :=
  ⟨by decide, priceCart_storable, by decide!,
    saveToFile_loadFromFile_round_trip binary32 (fun _ => default) (fun _ => default)
      priceCart.arr priceCart.count (by decide) priceCart_storable⟩

set_option maxRecDepth 100000 in
/-- C4 as stated fails: an item priced 0.001, as `addItem` accepts it, has no
pipe in any field, is written as `A1|Pen|1|0.00|0.00`, and is loaded with
unit price and subtotal 0, which `==` tells from the saved ones. -/
theorem save_load_drops_thousandths :
    addItem binary32 emptyCart addCheapInput = some (cartCheap, []) ∧ cartCheap.count = 1 ∧
    cartCheap.count ≤ 200 ∧
    '|' ∉ (cartCheap.arr 0).code ∧ '|' ∉ (cartCheap.arr 0).name ∧
    cartCheap.arr 0 =
      ⟨"A1".toList, "Pen".toList, 1, Binary32.fin false (8589935 / 8589934592),
        Binary32.fin false (8589935 / 8589934592)⟩ ∧
    saveToFile binary32 cartCheap.arr cartCheap.count = "A1|Pen|1|0.00|0.00\n".toList ∧
    (loadFromFile binary32 (fun _ => default)
        (some (saveToFile binary32 cartCheap.arr cartCheap.count)) (fun _ => default)).map
      (fun c => (c.count, c.arr 0)) =
      some (1, ⟨"A1".toList, "Pen".toList, 1, Binary32.fin false 0, Binary32.fin false 0⟩) ∧
    binary32.eq (Binary32.fin false 0) (cartCheap.arr 0).unitPrice = false ∧
    ¬ ∃ c, loadFromFile binary32 (fun _ => default)
        (some (saveToFile binary32 cartCheap.arr cartCheap.count)) (fun _ => default) = some c ∧
      c.count = cartCheap.count ∧ ∀ i, i < cartCheap.count → c.arr i = cartCheap.arr i := by
  have hload : (loadFromFile binary32 (fun _ => default)
        (some (saveToFile binary32 cartCheap.arr cartCheap.count)) (fun _ => default)).map
      (fun c => (c.count, c.arr 0)) =
      some (1, ⟨"A1".toList, "Pen".toList, 1, Binary32.fin false 0, Binary32.fin false 0⟩) := by
    decide!
  have hitem : cartCheap.arr 0 =
      ⟨"A1".toList, "Pen".toList, 1, Binary32.fin false (8589935 / 8589934592),
        Binary32.fin false (8589935 / 8589934592)⟩ := by
    decide!
  refine ⟨by with_unfolding_all rfl, by with_unfolding_all rfl, by decide!, by decide!,
    by decide!, hitem, by decide!, hload, by decide!, ?_⟩
  rintro ⟨c, hc, _, hitems⟩
  rw [hc] at hload
  simp only [Option.map_some', Option.some.injEq, Prod.mk.injEq] at hload
  have h0 := hitems 0 (by decide!)
  rw [hload.2, hitem] at h0
  exact absurd h0 (by decide!)

/-- A record whose first field has sixteen characters, six more than
`code[10]` holds with its terminator: the behaviour of `loadFromFile` is
undefined. -/
theorem loadFromFile_overlong_code :
    (loadFromFile binary32 (fun _ => default) (some overlongCodeFile)
      (fun _ => default)).isNone = true := by
  decide!

/-- C6, the code at the failing input.  `getValidFloat` takes the line `nan`,
which `strtof` converts whole to a NaN and which the test `value <= 0.0` does
not turn away; `addItem` stores the item with a NaN unit price, its subtotal
is the NaN that `quantity * unitPrice` computes, and `==` between the stored
subtotal and that product is false; `updateItem` with choice 2 takes a new
unit price `nan` in the same way. -/
theorem addItem_accepts_nan_price :
    getValidFloat binary32 "nan\n".toList = some (Binary32.nan false, []) ∧
    addItem binary32 emptyCart addNanInput = some (cartNan, []) ∧
    Reachable binary32 cartNan ∧ cartNan.count = 1 ∧
    cartNan.arr 0 = ⟨"A1".toList, "Pen".toList, 1, Binary32.nan false, Binary32.nan false⟩ ∧
    binary32.mulInt (cartNan.arr 0).quantity (cartNan.arr 0).unitPrice = Binary32.nan false ∧
    binary32.eq (cartNan.arr 0).subtotal
      (binary32.mulInt (cartNan.arr 0).quantity (cartNan.arr 0).unitPrice) = false ∧
    (updateItem binary32 demoCart updateNanInput).map (fun r => (r.1.count, r.1.arr 1, r.2)) =
      some (3, ⟨"B2".toList, "Ink".toList, 2, Binary32.nan false, Binary32.nan false⟩, []) :=
  ⟨by decide!, by with_unfolding_all rfl,
    Reachable.add emptyCart cartNan addNanInput [] (Reachable.empty _)
      (by with_unfolding_all rfl),
    by with_unfolding_all rfl, by decide!, by decide!, by decide!, by decide!⟩

/-- In the sample environment `==` holds between a value and itself exactly
when the value is not a NaN. -/
theorem binary32_eq_self (x : Binary32) :
    binary32.eq x x = true ↔ ∀ n, x ≠ Binary32.nan n := by
  cases x with
  | fin a m => simp [binary32, eqBinary32]
  | inf a => simp [binary32, eqBinary32]
  | nan a => simp [binary32, eqBinary32]

/-- C9, the code at the failing input.  With the ten-byte code buffer the
line `ABCDEFGHIJKL` yields `ABCDEFGHI`, and `JKL` with its newline is still in
the input: the next `getString` returns `JKL`, so that `addItem` stores `JKL`
as the name of the new item and reads the quantity from the lines after it. -/
theorem getString_leaves_cut_off_characters :
    getString MAX_CODE_LEN "ABCDEFGHIJKL\nPen\n3\n2.50\n".toList =
      some ("ABCDEFGHI".toList, "JKL\nPen\n3\n2.50\n".toList) ∧
    getString MAX_NAME_LEN "JKL\nPen\n3\n2.50\n".toList =
      some ("JKL".toList, "Pen\n3\n2.50\n".toList) ∧
    (addItem binary32 emptyCart "ABCDEFGHIJKL\nPen\n3\n2.50\n".toList).map
        (fun r => ((r.1.arr 0).code, (r.1.arr 0).name, (r.1.arr 0).quantity, r.1.count, r.2)) =
      some ("ABCDEFGHI".toList, "JKL".toList, 3, 1, []) := by
  refine ⟨by decide, by decide, by decide!⟩

theorem calculateFinalBill_discount_law_witness :
    ∑ i in Finset.range 1, (billExample i).subtotal = 600 ∧
      calculateFinalBill billExample 1 = (540, 60) :=
  ⟨by simp [billExample],
    (calculateFinalBill_discount_law billExample 1).2.2.2 (by simp [billExample])⟩

theorem removeItem_confirmed_shifts_witness :
    getString MAX_CODE_LEN "B2\n1\n".toList = some ("B2".toList, "1\n".toList) ∧
    findItemIndexByCode demoCart.arr demoCart.count "B2".toList = ((1 : Nat) : Int) ∧
    getValidInteger "" "1\n".toList = some (1, []) ∧
    ∃ c1 : Cart Binary32, removeItem demoCart "B2\n1\n".toList = some (c1, []) ∧
      c1.count = demoCart.count - 1 ∧
      (∀ j, j < 1 → c1.arr j = demoCart.arr j) ∧
      (∀ j, 1 < j → j < demoCart.count → c1.arr (j - 1) = demoCart.arr j) :=
  ⟨by decide, by decide, by decide,
    removeItem_confirmed_shifts demoCart "B2\n1\n".toList "1\n".toList [] "B2".toList 1
      (by decide) (by decide) (by decide)⟩

theorem removeItem_unchanged_witness :
    getString MAX_CODE_LEN "B2\n0\n".toList = some ("B2".toList, "0\n".toList) ∧
    findItemIndexByCode demoCart.arr demoCart.count "B2".toList = ((1 : Nat) : Int) ∧
    getValidInteger "" "0\n".toList = some (0, []) ∧
    ∃ c1 : Cart Binary32, removeItem demoCart "B2\n0\n".toList = some (c1, []) ∧
      c1.count = demoCart.count ∧ c1.arr = demoCart.arr ∧
      findItemIndexByCode c1.arr c1.count "B2".toList = ((1 : Nat) : Int) :=
  ⟨by decide, by decide, by decide,
    (removeItem_unchanged demoCart "B2\n0\n".toList).2.2 "B2".toList "0\n".toList 1 0 []
      (by decide) (by decide) (by decide) (by decide)⟩

theorem addItem_duplicate_rejected_witness :
    (addItem binary32 emptyCart addA1Input = some (cartA1, []) ∧ cartA1.count = 1) ∧
    getString MAX_CODE_LEN "A1\nPen\n".toList = some ("A1".toList, "Pen\n".toList) ∧
    (∃ i, i < cartA1.count ∧ (cartA1.arr i).code = "A1".toList) ∧
    ∃ (c1 : Cart Binary32) (rest : List Char),
      addItem binary32 cartA1 "A1\nPen\n".toList = some (c1, rest) ∧
      c1.count = cartA1.count ∧ (∀ j, j < cartA1.count → c1.arr j = cartA1.arr j) ∧
      c1.items = cartA1.items :=
  ⟨⟨by with_unfolding_all rfl, by with_unfolding_all rfl⟩, by decide,
    ⟨0, by decide!, by decide!⟩,
    addItem_duplicate_rejected binary32 cartA1 "A1\nPen\n".toList "Pen\n".toList "A1".toList
      (by decide) ⟨0, by decide!, by decide!⟩⟩

end ShoppingCart
